import Mathlib

/-!
Verification of the entity-relation core of mikro-typebox (`src/cli.ts` /
`src/prepare.ts`): the relation-graph model, the circular-reference
detector and breaker `detectCircularReferences`, the dependency orderer
`sortEntitiesByDependency`, and the per-field type projector
(`transformTypeNode`, `createPartialEntityType`, `createPrimaryKeyObjectType`,
`replaceEntityTypeWithPartialType`, `replaceEntityTypeWithPrimaryKey`,
`transformCollectionType`), plus the assembler `generateEntityFileTypes` and
the reader boundary `readEntities` / `generateEntityValidator`.

The TypeScript sources are shallowly embedded: JavaScript `Set`/`Map`
structures become lists with membership/association semantics, the
`string` keys `` `${from}->${to}` `` become `relationKey`, recursion is
given explicit fuel that provably never runs out on the executions the
theorems quantify over, and the TypeScript AST nodes relevant to the
projector become a small inductive type of type nodes.  Fields named
`from` in the source are called `efrom` here (`from` is a Lean keyword).
-/

/-- `EntityRelation` of `cli.ts`: one relation edge, `efrom`'s declaration
needs `eto`'s type.  (`from`/`to` in the source.) -/
structure EntityRelation where
  efrom : String
  eto : String
  propertyName : String
  isCollection : Bool
  deriving DecidableEq, Repr

/-- The mutable state of `detectCircularReferences`'s depth-first search.
`visited`, `stack` (`recursionStack`) and `cycles` (`allCycles`) mirror the
source; `finished` (nodes in completion order) and `tree` (descend edges)
are auxiliary ghost fields recording the traversal history: they are never
read by the algorithm and exist only to state invariants. -/
structure DfsState where
  visited : List String
  stack : List String
  cycles : List (List String)
  finished : List String
  tree : List (String × String)
  deriving Repr

/-- The cycle list recorded on a recursion-stack hit:
`path.slice(path.indexOf(u))` with `u` pushed at the end.  JavaScript's
`indexOf` returns `-1` when `u` is absent and `slice(-1)` keeps only the
last element, which the `else` branch mirrors. -/
def jsCycleOf (path : List String) (u : String) : List String :=
  if u ∈ path then path.drop (List.indexOf u path) ++ [u]
  else path.getLast?.toList ++ [u]

/-- The recursive `dfs` closure inside `detectCircularReferences`.
The recursion-stack test precedes the visited test, as in the source;
the recursion gets explicit fuel. -/
def dfs (rels : List EntityRelation) (names : List String) :
    Nat → String → List String → DfsState → DfsState
  | 0, _, _, s => s
  | fuel + 1, u, path, s =>
    if u ∈ s.stack then
      { s with cycles := s.cycles ++ [jsCycleOf path u] }
    else if u ∈ s.visited then s
    else
      let s1 : DfsState :=
        { s with
          visited := s.visited ++ [u]
          stack := u :: s.stack
          tree := s.tree ++ path.getLast?.toList.map (fun p => (p, u)) }
      let s2 := (rels.filter (fun r => r.efrom == u)).foldl
        (fun acc r =>
          if r.eto ∈ names then dfs rels names fuel r.eto (path ++ [u]) acc else acc)
        s1
      { s2 with stack := s2.stack.erase u, finished := s2.finished ++ [u] }

/-- Empty DFS state. -/
def DfsState.init : DfsState := ⟨[], [], [], [], []⟩

/-- The top-level loop of the detector: run `dfs` from every not-yet-visited
entity, in the iteration order of the entity-name set.  The fuel
`names.length + 1` never runs out (the recursion descends only into
unvisited names). -/
def runDfs (rels : List EntityRelation) (names : List String) : DfsState :=
  names.foldl
    (fun s n => if n ∈ s.visited then s else dfs rels names (names.length + 1) n [] s)
    DfsState.init

/-- The `` `${from}->${to}` `` relation key of the source. -/
def relationKey (a b : String) : String := a ++ "->" ++ b

/-- State of the cycle-breaking loop: `brokenKeys` mirrors the
`brokenRelations : Set<string>` of keys, `circ` flattens the returned
`circularReferences : Map<string, Set<string>>` into pairs. -/
structure BreakState where
  brokenKeys : List String
  circ : List (String × String)
  deriving Repr

/-- Consecutive pairs `(cycle[i], cycle[i+1])` of a recorded cycle. -/
def cyclePairs (c : List String) : List (String × String) := c.zip c.tail

/-- The source's inner loop testing whether any edge of the cycle is
already broken. -/
def isCycleBroken (s : BreakState) (c : List String) : Bool :=
  (cyclePairs c).any (fun p => s.brokenKeys.contains (relationKey p.1 p.2))

/-- One iteration of the cycle-breaking loop: skip an already-broken cycle,
otherwise break the last edge `(cycle[len-2], cycle[len-1])` — guarded by
the source's `from && to && from !== to` check (empty strings are falsy in
JavaScript, and self-edges are never broken). -/
def breakStep (s : BreakState) (c : List String) : BreakState :=
  if isCycleBroken s c then s
  else if 2 ≤ c.length then
    match c.drop (c.length - 2) with
    | [a, b] =>
      if a ≠ "" ∧ b ≠ "" ∧ a ≠ b then
        { brokenKeys := s.brokenKeys ++ [relationKey a b], circ := s.circ ++ [(a, b)] }
      else s
    | _ => s
  else s

/-- `allCycles.sort((a, b) => b.length - a.length)`: stable sort by cycle
length, longest first.  JavaScript's `sort` is stable and the comparator is
consistent, so the result equals that of any stable sorting algorithm;
insertion sort is used because it is stable and kernel-reducible. -/
def sortCyclesByLengthDesc (cs : List (List String)) : List (List String) :=
  cs.insertionSort (fun a b => b.length ≤ a.length)

/-- The cycle-processing phase of `detectCircularReferences`. -/
def breakCycles (cs : List (List String)) : BreakState :=
  (sortCyclesByLengthDesc cs).foldl breakStep ⟨[], []⟩

/-- `detectCircularReferences`, staged: the DFS collecting `allCycles`,
then the breaking loop.  Returns both phases' final states. -/
def detectCircularReferencesRun (rels : List EntityRelation) (names : List String) :
    DfsState × BreakState :=
  let d := runDfs rels names
  (d, breakCycles d.cycles)

/-- The value `detectCircularReferences` returns: the broken-edge set
(`circularReferences`), as the set of pairs `(from, to)`. -/
def detectCircularReferences (rels : List EntityRelation) (names : List String) :
    List (String × String) :=
  (detectCircularReferencesRun rels names).2.circ

/-! ## Dependency orderer (`sortEntitiesByDependency`) -/

/-- Relations whose two endpoints are known entity names (the guard of the
graph-building loop). -/
def relevantRels (rels : List EntityRelation) (names : List String) :
    List EntityRelation :=
  rels.filter (fun r => decide (r.efrom ∈ names) && decide (r.eto ∈ names))

/-- `inDegree.get(x)`: the number of (guarded) relations with `from === x` —
the number of dependencies `x` owns. -/
def inDegree (rels : List EntityRelation) (names : List String) (x : String) : Int :=
  ((relevantRels rels names).filter (fun r => r.efrom == x)).length

/-- `adjacencyList.get(x)`: the entities depending on `x`, in relation-list
order. -/
def adjacency (rels : List EntityRelation) (names : List String) (x : String) :
    List String :=
  ((relevantRels rels names).filter (fun r => r.eto == x)).map (·.efrom)

/-- The initial Kahn queue: entities of in-degree zero, in name-set
iteration order. -/
def initQueue (rels : List EntityRelation) (names : List String) : List String :=
  names.filter (fun n => inDegree rels names n == 0)

/-- The Kahn loop of `sortEntitiesByDependency`: pop the queue head, append
it to the result, decrement each dependent's working in-degree, enqueue a
dependent exactly when its degree reaches zero. -/
def kahnLoop (rels : List EntityRelation) (names : List String) :
    Nat → (String → Int) → List String → List String → List String
  | 0, _, _, result => result
  | fuel + 1, deg, queue, result =>
    match queue with
    | [] => result
    | current :: rest =>
      let step := (adjacency rels names current).foldl
        (fun (p : (String → Int) × List String) dep =>
          let d := p.1 dep - 1
          (Function.update p.1 dep d, if d == 0 then p.2 ++ [dep] else p.2))
        (deg, rest)
      kahnLoop rels names fuel step.1 step.2 (result ++ [current])

/-- Outgoing-relation count used by the remainder comparator; note the
source counts over the *unguarded* relation list here. -/
def outgoingCount (rels : List EntityRelation) (a : String) : Nat :=
  (rels.filter (fun r => r.efrom == a)).length

/-- Sign of a JavaScript numeric comparator result, over any linear
order. -/
def lexCmp {α : Type} [LinearOrder α] (x y : α) : Ordering :=
  if x < y then Ordering.lt else if x = y then Ordering.eq else Ordering.gt

/-- Lexicographic strict order on character lists. -/
def charListLt : List Char → List Char → Bool
  | [], [] => false
  | [], _ :: _ => true
  | _ :: _, [] => false
  | c :: cs, d :: ds => if c < d then true else if d < c then false else charListLt cs ds

/-- Lexicographic strict order on strings (the model of the default-locale
`localeCompare` on identifier names). -/
def strLt (a b : String) : Bool := charListLt a.data b.data

/-- `a.localeCompare(b)`'s sign, modelled lexicographically. -/
def stringCmp (a b : String) : Ordering :=
  if strLt a b then Ordering.lt else if a = b then Ordering.eq else Ordering.gt

/-- The remainder comparator: ascending in-degree, then ascending outgoing
count, then name order. -/
def remainderCmp (rels : List EntityRelation) (names : List String) (a b : String) :
    Ordering :=
  if inDegree rels names a ≠ inDegree rels names b then
    lexCmp (inDegree rels names a) (inDegree rels names b)
  else if outgoingCount rels a ≠ outgoingCount rels b then
    lexCmp (outgoingCount rels a) (outgoingCount rels b)
  else stringCmp a b

/-- `cmp(a,b) <= 0`, the order under which JavaScript's stable `sort`
arranges the remainder. -/
def remainderLE (rels : List EntityRelation) (names : List String) (a b : String) :
    Bool :=
  remainderCmp rels names a b ≠ Ordering.gt

/-- `remaining.sort(comparator)`: stable with a consistent comparator, so
equal to (stable, kernel-reducible) insertion sort under `remainderLE`. -/
def remainderSort (rels : List EntityRelation) (names : List String)
    (l : List String) : List String :=
  l.insertionSort (fun a b => remainderLE rels names a b = true)

/-- `sortEntitiesByDependency`: Kahn's algorithm on the dependency graph,
then the comparator-sorted remainder.  The Kahn fuel
`names.length + rels.length + 1` strictly bounds the number of loop
iterations (at most `names.length` initial enqueues plus one enqueue per
edge-decrement). -/
def sortEntitiesByDependency (rels : List EntityRelation) (names : List String) :
    List String :=
  let result := kahnLoop rels names (names.length + rels.length + 1)
    (inDegree rels names) (initQueue rels names) []
  let remaining := names.filter (fun n => decide (n ∉ result))
  result ++ remainderSort rels names remaining

/-! ## List and string helpers for the detector proofs -/

/-- Position of the first occurrence of `x` in `l` (`l.length` if absent). -/
def pos (x : String) : List String → Nat
  | [] => 0
  | y :: l => if y = x then 0 else pos x l + 1

/-- `v` occurs strictly before `u` in `l`. -/
def Before (l : List String) (v u : String) : Prop :=
  v ∈ l ∧ u ∈ l ∧ pos v l < pos u l

/-- `(u, v)` closes some recorded cycle: it is the final consecutive pair
of a cycle in the list. -/
def ClosesCycle (cycles : List (List String)) (u v : String) : Prop :=
  ∃ c ∈ cycles, ∃ q, c = q ++ [u, v]

/-- An entity name as produced by the TypeScript parser: a nonempty
identifier, in particular free of the `>` character that the relation-key
separator `"->"` uses. -/
def GoodName (n : String) : Prop := n ≠ "" ∧ '>' ∉ n.data

instance GoodName.decidable : DecidablePred GoodName := fun n =>
  decidable_of_iff (n ≠ "" ∧ '>' ∉ n.data) Iff.rfl

def unvisitedCount (names : List String) (s : DfsState) : Nat :=
  (names.filter (fun n => decide (n ∉ s.visited))).length

/-- State extension achieved by any `dfs` call: the recursion stack is
restored, and the visited list, finish order, cycle list and tree-edge
list only grow by appending. -/
structure DfsExt (s s' : DfsState) : Prop where
  stack_eq : s'.stack = s.stack
  visited : ∃ e, s'.visited = s.visited ++ e
  finished : ∃ e, s'.finished = s.finished ++ e
  cycles : ∃ e, s'.cycles = s.cycles ++ e
  tree : ∃ e, s'.tree = s.tree ++ e

/-- Global invariant of the DFS state. -/
structure DfsInv (rels : List EntityRelation) (names : List String) (s : DfsState) :
    Prop where
  visited_sub : ∀ x ∈ s.visited, x ∈ names
  stack_sub : ∀ x ∈ s.stack, x ∈ s.visited
  finished_sub : ∀ x ∈ s.finished, x ∈ s.visited
  visited_cases : ∀ x ∈ s.visited, x ∈ s.stack ∨ x ∈ s.finished
  stack_fin_disj : ∀ x ∈ s.stack, x ∉ s.finished
  tree_lt : ∀ p ∈ s.tree, p.1 ∈ s.visited ∧ p.2 ∈ s.visited ∧
      pos p.1 s.visited < pos p.2 s.visited
  closing_le : ∀ u v, ClosesCycle s.cycles u v → u ∈ s.visited ∧ v ∈ s.visited ∧
      pos v s.visited ≤ pos u s.visited
  cycle_tail : ∀ c ∈ s.cycles, ∃ q u v, c = q ++ [u, v] ∧
      ∀ p ∈ cyclePairs (q ++ [u]), p ∈ s.tree
  fin_classified : ∀ u ∈ s.finished, ∀ r ∈ rels, r.efrom = u → r.eto ∈ names →
      ClosesCycle s.cycles u r.eto ∨ Before s.finished r.eto u

/-- Invariant relating a `dfs` call's `path` argument to the state. -/
structure PathInv (s : DfsState) (path : List String) : Prop where
  stack_iff : ∀ x, x ∈ s.stack ↔ x ∈ path
  pairs_tree : ∀ p ∈ cyclePairs path, p ∈ s.tree
  increasing : List.Pairwise (fun a b => pos a s.visited < pos b s.visited) path
  sub_visited : ∀ x ∈ path, x ∈ s.visited

/-- Full postcondition of one `dfs` call. -/
structure DfsPost (rels : List EntityRelation) (names : List String)
    (u : String) (path : List String) (s s' : DfsState) : Prop where
  ext : DfsExt s s'
  inv : DfsInv rels names s'
  pinv : PathInv s' path
  u_visited : u ∈ s'.visited
  stackHit : u ∈ s.stack →
    s'.visited = s.visited ∧ s'.finished = s.finished ∧ s'.tree = s.tree ∧
    ∀ hne : path ≠ [], ClosesCycle s'.cycles (path.getLast hne) u
  visitedHit : u ∉ s.stack → u ∈ s.visited → s' = s
  descend : u ∉ s.visited → u ∈ s'.finished

/-- Invariant of the cycle-breaking loop: the key set mirrors the broken
pair set, and every broken pair is a cycle-closing pair with distinct
endpoints. -/
def BreakInv (d : DfsState) (b : BreakState) : Prop :=
  b.brokenKeys = b.circ.map (fun p => relationKey p.1 p.2) ∧
  ∀ pr ∈ b.circ, ClosesCycle d.cycles pr.1 pr.2 ∧ pr.1 ≠ pr.2

/-- An edge of the residual graph: a relation edge between known entities
that is not a self-loop and whose pair was not broken. -/
def ResidualStep (rels : List EntityRelation) (names : List String)
    (circ : List (String × String)) (a b : String) : Prop :=
  (∃ r ∈ rels, r.efrom = a ∧ r.eto = b) ∧ a ∈ names ∧ b ∈ names ∧ a ≠ b ∧
    (a, b) ∉ circ

/-- TypeScript type nodes relevant to the projector: type references with
identifier names (entity references, `Collection<T>`, `Array<T>`), type
literals of property signatures (name, question token, type), unions, and
opaque keyword types. -/
inductive TypeNode where
  | ref (name : String) (args : List TypeNode)
  | lit (fields : List (String × Bool × TypeNode))
  | union (alts : List TypeNode)
  | keyword (tag : String)
  deriving Repr

/-- A projected property signature (name, question token, type), the
payload of the emitted type-alias declarations. -/
structure PropSig where
  pname : String
  optional : Bool
  ptype : TypeNode
  deriving Repr

/-- Primary-key info per entity: `{ fieldName, fieldType }`. -/
structure PkInfo where
  fieldName : String
  fieldType : TypeNode
  deriving Repr

/-- A member initializer, as far as `inferTypeFromInitializer` and the
relation collector look at it. -/
inductive InitExpr where
  | collectionNew (arg : Option TypeNode)
  | arrayLit
  | typeRefInit (t : TypeNode)
  | otherInit
  deriving Repr

/-- A property declaration of a parsed class: name, question token,
`@PrimaryKey()` marker, `@ManyToOne(arg?)` / `@OneToMany(arg?)` decorators
(with their optional string-literal first argument), type annotation, and
initializer. -/
structure MemberDef where
  mname : String
  optional : Bool
  isPrimaryKey : Bool
  manyToOne : Option (Option String)
  oneToMany : Option (Option String)
  mtype : Option TypeNode
  minit : Option InitExpr
  deriving Repr

/-- A parsed class declaration: name, `@Entity()` marker, property
declarations in source order. -/
structure ClassDef where
  cname : String
  isEntity : Bool
  members : List MemberDef
  deriving Repr

/-- `EntityParseOptions`. -/
structure EntityParseOptions where
  usePartialTypes : Bool
  deriving Repr

/-- An emitted declaration: an entity (or partial) type alias, or the one
shared `export type Collection<T> = { [k: number]: T; }` auxiliary. -/
inductive Decl where
  | typeAlias (name : String) (fields : List PropSig)
  | collectionAux
  deriving Repr

/-- `visitEntities` primary-key collection over all classes: for each
`@Entity()` class, the first `@PrimaryKey()` member that carries a type
annotation supplies `(fieldName, fieldType)`; later classes of the same
name overwrite. -/
def collectPks (classes : List ClassDef) : String → Option PkInfo :=
  classes.foldl
    (fun m c =>
      if c.isEntity then
        match c.members.find? (fun mem => mem.isPrimaryKey) with
        | some mem =>
          match mem.mtype with
          | some t => fun k => if k = c.cname then some ⟨mem.mname, t⟩ else m k
          | none => m
        | none => m
      else m)
    (fun _ => none)

/-- `visitEntities` entity-name collection: `@Entity()` class names in
source order, first occurrence kept (JavaScript `Set` semantics). -/
def collectNames (classes : List ClassDef) : List String :=
  classes.foldl
    (fun ns c =>
      if c.isEntity then (if c.cname ∈ ns then ns else ns ++ [c.cname]) else ns)
    []

/-- The relation-target resolution of `collectEntityRelations`: the
`OneToMany` string argument wins over the `ManyToOne` one; otherwise fall
back to the type annotation's reference name, then to a
`new Collection<T>(this)` initializer's type argument. -/
def memberRelTarget (mem : MemberDef) : Option String :=
  let t1 : Option String :=
    match mem.manyToOne with
    | some (some s) => some s
    | _ => none
  let t2 : Option String :=
    match mem.oneToMany with
    | some (some s) => some s
    | _ => none
  match (match t2 with | some s => some s | none => t1) with
  | some s => some s
  | none =>
    match mem.mtype with
    | some (TypeNode.ref n _) => some n
    | _ =>
      match mem.minit with
      | some (InitExpr.collectionNew (some (TypeNode.ref n _))) => some n
      | _ => none

/-- `collectEntityRelations`: an edge per `@ManyToOne`/`@OneToMany` member
whose resolved target is a known entity name; `isCollection` records the
`@OneToMany` marker. -/
def collectRels (classes : List ClassDef) (names : List String) :
    List EntityRelation :=
  classes.foldl
    (fun acc c =>
      if c.isEntity then
        c.members.foldl
          (fun a mem =>
            if mem.manyToOne.isSome || mem.oneToMany.isSome then
              match memberRelTarget mem with
              | some t =>
                if t ∈ names then
                  a ++ [⟨c.cname, t, mem.mname, mem.oneToMany.isSome⟩]
                else a
              | none => a
            else a)
          acc
      else acc)
    []

/-- `createPrimaryKeyObjectType`: the inline `{ pk: PkType }` literal. -/
def createPrimaryKeyObjectType (pk : PkInfo) : TypeNode :=
  TypeNode.lit [(pk.fieldName, false, pk.fieldType)]

/-- The per-property map of `createPartialEntityType`: the primary-key
property is kept untouched, every other property gets a question token. -/
def partialProps (pk : PkInfo) (props : List PropSig) : List PropSig :=
  props.map (fun p => if p.pname = pk.fieldName then p else ⟨p.pname, true, p.ptype⟩)

/-- `createPartialEntityType`: the `PartialEntity` companion alias. -/
def createPartialEntityType (entityName : String) (pk : PkInfo)
    (allProperties : List PropSig) : Decl :=
  Decl.typeAlias ("Partial" ++ entityName) (partialProps pk allProperties)

/-- `replaceEntityTypeWithPartialType` (`usePartialTypes` mode): known
entities become `schema.PartialEntity` references, broken edges from the
current entity become inline primary-key literals. -/
def replaceEntityTypeWithPartialType (t : TypeNode)
    (pks : String → Option PkInfo) (circ : List (String × String))
    (currentEntity : Option String) : TypeNode :=
  match t with
  | TypeNode.ref entityName _ =>
    match pks entityName with
    | some pk =>
      match currentEntity with
      | some cur =>
        if (cur, entityName) ∈ circ then createPrimaryKeyObjectType pk
        else TypeNode.ref ("schema.Partial" ++ entityName) []
      | none => TypeNode.ref ("schema.Partial" ++ entityName) []
    | none => t
  | _ => t

/-- `replaceEntityTypeWithPrimaryKey` (the `usePartialTypes = false` mode):
known entities become inline primary-key literals. -/
def replaceEntityTypeWithPrimaryKey (t : TypeNode)
    (pks : String → Option PkInfo) : TypeNode :=
  match t with
  | TypeNode.ref entityName _ =>
    match pks entityName with
    | some pk => createPrimaryKeyObjectType pk
    | none => t
  | _ => t

/-- `transformCollectionType`: `Collection<...>` becomes
`Collection<...'> | Array<...'>`, resolving entity type arguments with the
mode-selected replacement. -/
def transformCollectionType (t : TypeNode) (pks : String → Option PkInfo)
    (opts : EntityParseOptions) (circ : List (String × String))
    (currentEntity : Option String) : TypeNode :=
  match t with
  | TypeNode.ref nm args =>
    if nm = "Collection" then
      if args.isEmpty then
        TypeNode.union [TypeNode.ref "Collection" args, TypeNode.ref "Array" args]
      else
        let targs := args.map (fun a =>
          if opts.usePartialTypes then
            replaceEntityTypeWithPartialType a pks circ currentEntity
          else replaceEntityTypeWithPrimaryKey a pks)
        TypeNode.union [TypeNode.ref "Collection" targs, TypeNode.ref "Array" targs]
    else t
  | _ => t

/-- `transformTypeNode`: the collection transformation applies first and is
returned when it changed the node (exactly the `Collection` references);
otherwise the mode-selected entity replacement applies. -/
def transformTypeNode (t : TypeNode) (pks : String → Option PkInfo)
    (opts : EntityParseOptions) (circ : List (String × String))
    (currentEntity : Option String) : TypeNode :=
  match t with
  | TypeNode.ref nm _ =>
    if nm = "Collection" then transformCollectionType t pks opts circ currentEntity
    else if opts.usePartialTypes then
      replaceEntityTypeWithPartialType t pks circ currentEntity
    else replaceEntityTypeWithPrimaryKey t pks
  | _ => t

/-- `inferTypeFromInitializer`. -/
def inferTypeFromInitializer (ie : InitExpr) (pks : String → Option PkInfo)
    (opts : EntityParseOptions) (circ : List (String × String))
    (currentEntity : Option String) : Option TypeNode :=
  match ie with
  | InitExpr.collectionNew (some g) =>
    let tr :=
      if opts.usePartialTypes then replaceEntityTypeWithPartialType g pks circ currentEntity
      else replaceEntityTypeWithPrimaryKey g pks
    some (TypeNode.union [TypeNode.ref "Collection" [tr], TypeNode.ref "Array" [tr]])
  | InitExpr.collectionNew none => none
  | InitExpr.typeRefInit t => some (transformTypeNode t pks opts circ currentEntity)
  | InitExpr.arrayLit => some (TypeNode.ref "Array" [TypeNode.keyword "any"])
  | InitExpr.otherInit => none

/-- The per-property work of the transformer's class branch: annotated
type, else inferred type, else `any`; then `transformTypeNode`. -/
def projectMember (pks : String → Option PkInfo) (opts : EntityParseOptions)
    (circ : List (String × String)) (className : String) (mem : MemberDef) :
    PropSig :=
  let t1 : Option TypeNode :=
    match mem.mtype with
    | some t => some t
    | none =>
      match mem.minit with
      | some ie => inferTypeFromInitializer ie pks opts circ (some className)
      | none => none
  let t2 := match t1 with
    | some t => t
    | none => TypeNode.keyword "any"
  ⟨mem.mname, mem.optional, transformTypeNode t2 pks opts circ (some className)⟩

/-- The transformer's class-declaration branch: the main alias, plus — in
`usePartialTypes` mode, for classes with a collected primary key — the
partial companion alias. -/
def classToDecls (pks : String → Option PkInfo) (opts : EntityParseOptions)
    (circ : List (String × String)) (c : ClassDef) : List Decl :=
  let props := c.members.map (projectMember pks opts circ c.cname)
  let mainType := Decl.typeAlias c.cname props
  if opts.usePartialTypes then
    match pks c.cname with
    | some pk => [mainType, createPartialEntityType c.cname pk props]
    | none => [mainType]
  else [mainType]

/-- `generateEntityTypes` on one file: the declarations of its classes
(imports, calls, statements and initialized variables are removed by the
transformer and emit nothing). -/
def generateEntityTypesModel (pks : String → Option PkInfo)
    (opts : EntityParseOptions) (circ : List (String × String))
    (file : List ClassDef) : List Decl :=
  (file.map (classToDecls pks opts circ)).flatten

/-- Structural equality of type nodes (models the content equality of the
`processedFiles : Set<string>` dedup in `generateEntityFileTypes`). -/
def TypeNode.beq : TypeNode → TypeNode → Bool
  | TypeNode.ref n as, TypeNode.ref m bs => n == m && beqList as bs
  | TypeNode.lit fs, TypeNode.lit gs => beqProps fs gs
  | TypeNode.union as, TypeNode.union bs => beqList as bs
  | TypeNode.keyword a, TypeNode.keyword b => a == b
  | _, _ => false
where
  beqList : List TypeNode → List TypeNode → Bool
    | [], [] => true
    | a :: as, b :: bs => TypeNode.beq a b && beqList as bs
    | _, _ => false
  beqProps : List (String × Bool × TypeNode) → List (String × Bool × TypeNode) → Bool
    | [], [] => true
    | (n, o, t) :: as, (m, p, u) :: bs =>
      n == m && o == p && TypeNode.beq t u && beqProps as bs
    | _, _ => false

instance : BEq TypeNode := ⟨TypeNode.beq⟩

def memberBeq (a b : MemberDef) : Bool :=
  a.mname == b.mname && a.optional == b.optional && a.isPrimaryKey == b.isPrimaryKey &&
  a.manyToOne == b.manyToOne && a.oneToMany == b.oneToMany &&
  (match a.mtype, b.mtype with
   | none, none => true
   | some t, some u => t == u
   | _, _ => false) &&
  (match a.minit, b.minit with
   | none, none => true
   | some InitExpr.arrayLit, some InitExpr.arrayLit => true
   | some InitExpr.otherInit, some InitExpr.otherInit => true
   | some (InitExpr.typeRefInit t), some (InitExpr.typeRefInit u) => t == u
   | some (InitExpr.collectionNew none), some (InitExpr.collectionNew none) => true
   | some (InitExpr.collectionNew (some t)), some (InitExpr.collectionNew (some u)) => t == u
   | _, _ => false)

def classBeq (a b : ClassDef) : Bool :=
  a.cname == b.cname && a.isEntity == b.isEntity &&
    List.beq memberBeq a.members b.members
where
  List.beq {α : Type} (f : α → α → Bool) : List α → List α → Bool
    | [], [] => true
    | x :: xs, y :: ys => f x y && List.beq f xs ys
    | _, _ => false

/-- File-content equality (two files are "the same" when their parsed class
lists coincide, the model of raw-text equality). -/
def fileBeq (a b : List ClassDef) : Bool :=
  classBeq.List.beq classBeq a b

/-- `generateEntityFileTypes`: collect primary keys, names and relations
over the concatenation of all files, detect circular references, sort
entities by dependency, reorder the files along the entity order
(deduplicated by content, then trailing unprocessed files), emit each
file's declarations, and prepend the single shared `Collection<T>`
auxiliary inside the `schema` namespace. -/
def generateEntityFileTypesModel (files : List (List ClassDef))
    (opts : EntityParseOptions) : List Decl :=
  let classes := files.flatten
  let pks := collectPks classes
  let names := collectNames classes
  let rels := collectRels classes names
  let circ := detectCircularReferences rels names
  let entityToFile : String → Option (List ClassDef) :=
    files.foldl
      (fun m f => (collectNames f).foldl
        (fun m' e => fun k => if k = e then some f else m' k) m)
      (fun _ => none)
  let sorted := sortEntitiesByDependency rels names
  let reordered := sorted.foldl
    (fun (acc : List (List ClassDef)) e =>
      match entityToFile e with
      | some f => if acc.any (fun g => fileBeq g f) then acc else acc ++ [f]
      | none => acc)
    []
  let reordered2 := reordered ++ files.filter (fun f => !(reordered.any (fun g => fileBeq g f)))
  Decl.collectionAux :: (reordered2.map (generateEntityTypesModel pks opts circ)).flatten

/-! ## Reader boundary (`entity-validator.ts`) -/

/-- The extension filter list of `readEntities`. -/
def extensionsList : List String :=
  [".ts", ".mts", ".cts", ".js", ".mjs", ".cjs", ".jsx", ".tsx"]

/-- `path.extname` on a directory entry: the suffix from the last dot,
empty for dotless names and for dotfiles whose only dot leads. -/
def extname (s : String) : String :=
  match s.data with
  | [] => ""
  | _ :: rest =>
    if '.' ∈ rest then
      String.mk ('.' :: (rest.reverse.takeWhile (fun c => c ≠ '.')).reverse)
    else ""

/-- `readEntities`, with the file system shallowly embedded: `dirExists`
models `existsSync(entitiesDir)`, `entries` models `readdir`, `readF`
models `readFile`.  The only error is the missing directory; an empty or
extension-filtered-empty listing yields an empty map. -/
def readEntities (entitiesDir : String) (dirExists : Bool) (entries : List String)
    (readF : String → String) : Except String (List (String × String)) :=
  if dirExists then
    Except.ok ((entries.filter (fun e => decide (extname e ∈ extensionsList))).map
      (fun e => (e, readF (entitiesDir ++ "/" ++ e))))
  else
    Except.error ("Entities directory does not exist: " ++ entitiesDir ++
      ". Set the entitiesDir option to the correct directory.")

/-- `generateEntityValidator` up to the type-generation stage (the
downstream model-to-validator generation, enum postprocessing, formatting
and file writing are external collaborators): read the entity files, then
generate the namespaced type declarations.  `parse` models the TypeScript
parsing of one file's source text into class declarations;
`targetIsTypebox` models
`targetValidationLibrary === undefined || targetValidationLibrary === "typebox"`,
the default of the `partials` option. -/
def generateEntityValidatorModel (entitiesDir : String) (dirExists : Bool)
    (entries : List String) (readF : String → String)
    (parse : String → List ClassDef) (partials : Option Bool)
    (targetIsTypebox : Bool) : Except String (List Decl) :=
  match readEntities entitiesDir dirExists entries readF with
  | Except.error e => Except.error e
  | Except.ok filesMap =>
    Except.ok (generateEntityFileTypesModel (filesMap.map (fun kv => parse kv.2))
      ⟨partials.getD targetIsTypebox⟩)

theorem pos_lt_length {x : String} {l : List String} (h : x ∈ l) : pos x l < l.length := by
  induction l with
  | nil => cases h
  | cons y l ih =>
    by_cases hy : y = x
    · simp [pos, hy]
    · rcases List.mem_cons.1 h with h1 | h1
      · exact absurd h1.symm hy
      · simpa [pos, hy] using ih h1

theorem pos_append_of_mem {x : String} {l₁ : List String} (l₂ : List String)
    (h : x ∈ l₁) : pos x (l₁ ++ l₂) = pos x l₁ := by
  induction l₁ with
  | nil => cases h
  | cons y l ih =>
    by_cases hy : y = x
    · simp [pos, hy]
    · rcases List.mem_cons.1 h with h1 | h1
      · exact absurd h1.symm hy
      · simp [pos, hy, ih h1]

theorem pos_append_of_not_mem {x : String} {l₁ : List String} (l₂ : List String)
    (h : x ∉ l₁) : pos x (l₁ ++ l₂) = l₁.length + pos x l₂ := by
  induction l₁ with
  | nil => simp
  | cons y l ih =>
    have hy : y ≠ x := fun e => h (e ▸ List.mem_cons_self y l)
    have hx : x ∉ l := fun e => h (List.mem_cons_of_mem _ e)
    simp [pos, hy, ih hx]
    omega

theorem Before.append {l : List String} {v u : String} (e : List String)
    (h : Before l v u) : Before (l ++ e) v u := by
  obtain ⟨hv, hu, hlt⟩ := h
  exact ⟨List.mem_append_left _ hv, List.mem_append_left _ hu, by
    rw [pos_append_of_mem e hv, pos_append_of_mem e hu]; exact hlt⟩

theorem Before.of_mem_append {l : List String} {v u : String}
    (hv : v ∈ l) (hu : u ∉ l) : Before (l ++ [u]) v u := by
  refine ⟨List.mem_append_left _ hv, List.mem_append_right _ (by simp), ?_⟩
  rw [pos_append_of_mem [u] hv, pos_append_of_not_mem [u] hu]
  have := pos_lt_length hv
  omega

theorem ClosesCycle.mono {cycles : List (List String)} {u v : String}
    (e : List (List String)) (h : ClosesCycle cycles u v) :
    ClosesCycle (cycles ++ e) u v := by
  obtain ⟨c, hc, q, hq⟩ := h
  exact ⟨c, List.mem_append_left _ hc, q, hq⟩

theorem goodChars_key_inj {a b c d : List Char}
    (ha : '>' ∉ a) (hc : '>' ∉ c)
    (h : a ++ '-' :: '>' :: b = c ++ '-' :: '>' :: d) : a = c ∧ b = d := by
  induction a generalizing c with
  | nil =>
    cases c with
    | nil => simpa using h
    | cons x c' =>
      exfalso
      simp only [List.nil_append, List.cons_append, List.cons.injEq] at h
      obtain ⟨hx, h⟩ := h
      cases c' with
      | nil =>
        simp only [List.nil_append, List.cons.injEq] at h
        exact absurd h.1 (by decide)
      | cons y c'' =>
        simp only [List.cons_append, List.cons.injEq] at h
        refine hc ?_
        rw [h.1]
        exact List.mem_cons_of_mem _ (List.mem_cons_self _ _)
  | cons x a' ih =>
    cases c with
    | nil =>
      exfalso
      simp only [List.cons_append, List.nil_append, List.cons.injEq] at h
      obtain ⟨hx, h⟩ := h
      cases a' with
      | nil =>
        simp only [List.nil_append, List.cons.injEq] at h
        exact absurd h.1 (by decide)
      | cons y a'' =>
        simp only [List.cons_append, List.cons.injEq] at h
        refine ha ?_
        rw [h.1]
        exact List.mem_cons_of_mem _ (List.mem_cons_self _ _)
    | cons y c' =>
      simp only [List.cons_append, List.cons.injEq] at h
      obtain ⟨hxy, h⟩ := h
      have hres := ih (fun m => ha (List.mem_cons_of_mem _ m))
        (fun m => hc (List.mem_cons_of_mem _ m)) h
      exact ⟨by rw [hxy, hres.1], hres.2⟩

/-- Injectivity of `relationKey` on `>`-free names. -/
theorem relationKey_inj {a b c d : String}
    (ha : '>' ∉ a.data) (hc : '>' ∉ c.data)
    (h : relationKey a b = relationKey c d) : a = c ∧ b = d := by
  have hsep : ("->" : String).data = ['-', '>'] := rfl
  have hdata : a.data ++ '-' :: '>' :: b.data = c.data ++ '-' :: '>' :: d.data := by
    have h1 := congrArg String.data h
    simpa [relationKey, String.data_append, hsep] using h1
  obtain ⟨h1, h2⟩ := goodChars_key_inj ha hc hdata
  exact ⟨String.ext h1, String.ext h2⟩

/-! ## Cycle-pair decomposition lemmas -/

theorem cyclePairs_cons_cons (x y : String) (l : List String) :
    cyclePairs (x :: y :: l) = (x, y) :: cyclePairs (y :: l) := rfl

theorem cyclePairs_mem_cons {p : String × String} {l : List String} (x : String)
    (h : p ∈ cyclePairs l) : p ∈ cyclePairs (x :: l) := by
  cases l with
  | nil => cases h
  | cons y l => exact List.mem_cons_of_mem _ h

theorem cyclePairs_drop_mem {p : String × String} {l : List String} {i : Nat}
    (h : p ∈ cyclePairs (l.drop i)) : p ∈ cyclePairs l := by
  induction i generalizing l with
  | zero => simpa using h
  | succ i ih =>
    cases l with
    | nil => cases h
    | cons x l => exact cyclePairs_mem_cons x (ih (by simpa using h))

theorem cyclePairs_concat (l : List String) (u : String) :
    cyclePairs (l ++ [u]) = cyclePairs l ++ l.getLast?.toList.map (fun p => (p, u)) := by
  induction l with
  | nil => rfl
  | cons x l ih =>
    cases l with
    | nil => rfl
    | cons y l' =>
      have e1 : cyclePairs ((x :: y :: l') ++ [u]) = (x, y) :: cyclePairs ((y :: l') ++ [u]) := rfl
      have e2 : cyclePairs (x :: y :: l') = (x, y) :: cyclePairs (y :: l') := rfl
      have e3 : (x :: y :: l').getLast? = (y :: l').getLast? := rfl
      rw [e1, ih, e2, e3, List.cons_append]

theorem pairwise_le_getLast {f : String → Nat} {l : List String}
    (hp : List.Pairwise (fun a b => f a < f b) l) (hne : l ≠ [])
    {x : String} (hx : x ∈ l) : f x ≤ f (l.getLast hne) := by
  rcases eq_or_ne x (l.getLast hne) with h | h
  · exact h ▸ Nat.le_refl _
  · have hdecomp := List.dropLast_append_getLast hne
    rw [← hdecomp] at hp
    rw [List.pairwise_append] at hp
    have hx' : x ∈ l.dropLast := by
      rw [← hdecomp] at hx
      rcases List.mem_append.1 hx with h1 | h1
      · exact h1
      · exact absurd (List.mem_singleton.1 h1) h
    exact Nat.le_of_lt (hp.2.2 x hx' _ (List.mem_singleton_self _))

theorem mem_drop_indexOf {x : String} : ∀ {l : List String}, x ∈ l →
    x ∈ l.drop (List.indexOf x l)
  | [], h => absurd h (List.not_mem_nil x)
  | y :: l, h => by
    by_cases hy : y = x
    · subst hy
      simp [List.indexOf_cons]
    · have hx : x ∈ l := by
        rcases List.mem_cons.1 h with h1 | h1
        · exact absurd h1.symm hy
        · exact h1
      have hbeq : (y == x) = false := beq_eq_false_iff_ne.2 hy
      rw [List.indexOf_cons, hbeq]
      simpa using mem_drop_indexOf hx

/-- Decomposition of a recorded cycle: when the revisited node `u` lies on
the path, the recorded list is `q ++ [a, u]` where `a` is the last path
element, and all pairs of `q ++ [a]` are consecutive pairs of the path. -/
theorem jsCycleOf_decomp {path : List String} {u : String} (hu : u ∈ path) :
    ∃ q a, jsCycleOf path u = q ++ [a, u] ∧
      (∀ hne : path ≠ [], a = path.getLast hne) ∧
      (∀ p ∈ cyclePairs (q ++ [a]), p ∈ cyclePairs path) ∧ u ∈ q ++ [a] := by
  have hidx : List.indexOf u path < path.length := List.indexOf_lt_length.2 hu
  set d := path.drop (List.indexOf u path) with hd
  have hdne : d ≠ [] := by
    rw [hd]
    intro hcon
    rw [List.drop_eq_nil_iff] at hcon
    omega
  have hdecomp : d.dropLast ++ [d.getLast hdne] = d := List.dropLast_append_getLast hdne
  have h0 : jsCycleOf path u = d ++ [u] := by rw [jsCycleOf, if_pos hu]
  have e : (d.dropLast ++ [d.getLast hdne]) ++ [u] = d ++ [u] :=
    congrArg (fun t => t ++ [u]) hdecomp
  refine ⟨d.dropLast, d.getLast hdne, ?_, ?_, ?_, ?_⟩
  · rw [h0, ← e]
    simp
  · intro hne'
    exact List.getLast_drop hdne
  · intro p hp
    rw [hdecomp] at hp
    exact cyclePairs_drop_mem (hd ▸ hp)
  · rw [hdecomp]
    exact hd ▸ mem_drop_indexOf hu

/-! ## Unvisited-count fuel lemmas -/

theorem length_filter_ne_lt {u : String} {m : List String} (h : u ∈ m) :
    (m.filter (fun x => decide (x ≠ u))).length < m.length := by
  induction m with
  | nil => cases h
  | cons x m ih =>
    by_cases hx : x = u
    · subst hx
      simp only [List.filter_cons, decide_eq_true_eq]
      rw [if_neg (by simp)]
      exact Nat.lt_succ_of_le (List.length_filter_le _ _)
    · rcases List.mem_cons.1 h with h1 | h1
      · exact absurd h1.symm hx
      · simp only [List.filter_cons, decide_eq_true_eq]
        rw [if_pos (by simpa using hx)]
        simpa using ih h1

/-! ## DFS invariants -/

theorem DfsExt.refl (s : DfsState) : DfsExt s s :=
  ⟨rfl, ⟨[], by simp⟩, ⟨[], by simp⟩, ⟨[], by simp⟩, ⟨[], by simp⟩⟩

theorem DfsExt.trans {s₁ s₂ s₃ : DfsState} (h₁ : DfsExt s₁ s₂) (h₂ : DfsExt s₂ s₃) :
    DfsExt s₁ s₃ := by
  obtain ⟨a1, b1, c1, d1, e1⟩ := h₁
  obtain ⟨a2, b2, c2, d2, e2⟩ := h₂
  refine ⟨a2.trans a1, ?_, ?_, ?_, ?_⟩
  · obtain ⟨x, hx⟩ := b1; obtain ⟨y, hy⟩ := b2
    exact ⟨x ++ y, by rw [hy, hx, List.append_assoc]⟩
  · obtain ⟨x, hx⟩ := c1; obtain ⟨y, hy⟩ := c2
    exact ⟨x ++ y, by rw [hy, hx, List.append_assoc]⟩
  · obtain ⟨x, hx⟩ := d1; obtain ⟨y, hy⟩ := d2
    exact ⟨x ++ y, by rw [hy, hx, List.append_assoc]⟩
  · obtain ⟨x, hx⟩ := e1; obtain ⟨y, hy⟩ := e2
    exact ⟨x ++ y, by rw [hy, hx, List.append_assoc]⟩

theorem DfsExt.visited_mem {s s' : DfsState} (h : DfsExt s s') {x : String}
    (hx : x ∈ s.visited) : x ∈ s'.visited := by
  obtain ⟨e, he⟩ := h.visited
  rw [he]; exact List.mem_append_left _ hx

theorem DfsExt.finished_mem {s s' : DfsState} (h : DfsExt s s') {x : String}
    (hx : x ∈ s.finished) : x ∈ s'.finished := by
  obtain ⟨e, he⟩ := h.finished
  rw [he]; exact List.mem_append_left _ hx

theorem DfsExt.tree_mem {s s' : DfsState} (h : DfsExt s s') {p : String × String}
    (hp : p ∈ s.tree) : p ∈ s'.tree := by
  obtain ⟨e, he⟩ := h.tree
  rw [he]; exact List.mem_append_left _ hp

theorem DfsExt.closes {s s' : DfsState} (h : DfsExt s s') {u v : String}
    (hc : ClosesCycle s.cycles u v) : ClosesCycle s'.cycles u v := by
  obtain ⟨e, he⟩ := h.cycles
  rw [he]; exact hc.mono e

theorem DfsExt.before {s s' : DfsState} (h : DfsExt s s') {v u : String}
    (hb : Before s.finished v u) : Before s'.finished v u := by
  obtain ⟨e, he⟩ := h.finished
  rw [he]; exact hb.append e

theorem DfsExt.unvisitedCount_le {names : List String} {s s' : DfsState}
    (h : DfsExt s s') : unvisitedCount names s' ≤ unvisitedCount names s := by
  obtain ⟨e, he⟩ := h.visited
  unfold unvisitedCount
  refine List.Sublist.length_le (List.monotone_filter_right _ ?_)
  intro n hn
  rw [decide_eq_true_eq] at hn ⊢
  intro hmem
  exact hn (he ▸ List.mem_append_left _ hmem)

theorem dfsInv_init (rels : List EntityRelation) (names : List String) :
    DfsInv rels names DfsState.init := by
  refine ⟨?_, ?_, ?_, ?_, ?_, ?_, ?_, ?_, ?_⟩ <;> simp [DfsState.init, ClosesCycle]

theorem pathInv_init : PathInv DfsState.init [] := by
  refine ⟨?_, ?_, ?_, ?_⟩ <;> simp [DfsState.init, cyclePairs]

theorem concat_inj {q q' : List String} {x a : String}
    (h : q ++ [x] = q' ++ [a]) : q = q' ∧ x = a := by
  constructor
  · have h1 := congrArg List.dropLast h
    simpa using h1
  · have h2 := congrArg List.getLast? h
    simpa [List.getLast?_concat] using h2

theorem lastTwo_inj {q q' : List String} {x y a b : String}
    (h : q ++ [x, y] = q' ++ [a, b]) : x = a ∧ y = b := by
  have h1 : (q ++ [x]) ++ [y] = (q' ++ [a]) ++ [b] := by
    simpa [List.append_assoc] using h
  obtain ⟨h2, h3⟩ := concat_inj h1
  exact ⟨(concat_inj h2).2, h3⟩

theorem getLast_concat_eq {l : List String} {a : String} (h : l ++ [a] ≠ []) :
    (l ++ [a]).getLast h = a := List.getLast_concat l

theorem unvisitedCount_strict {names : List String} {v : List String} {u : String}
    (hu : u ∈ names) (hnv : u ∉ v) :
    (names.filter (fun n => decide (n ∉ v ++ [u]))).length <
      (names.filter (fun n => decide (n ∉ v))).length := by
  have heq : names.filter (fun n => decide (n ∉ v ++ [u])) =
      (names.filter (fun n => decide (n ∉ v))).filter (fun n => decide (n ≠ u)) := by
    rw [List.filter_filter]
    refine List.filter_congr ?_
    intro n _
    by_cases h1 : n ∈ v
    · simp [h1]
    · by_cases h2 : n = u <;> simp [h1, h2]
  rw [heq]
  refine length_filter_ne_lt ?_
  rw [List.mem_filter]
  exact ⟨hu, by simpa using hnv⟩

/-- Correctness of one `dfs` call: the state extends monotonically, all
invariants are preserved, a recursion-stack hit records a cycle closing at
the scanning parent, and a descend finishes `u` with all of its relation
edges classified (either the edge closes a recorded cycle, or its target
finished strictly earlier). -/
theorem dfs_spec (rels : List EntityRelation) (names : List String) :
    ∀ (fuel : Nat) (u : String) (path : List String) (s : DfsState),
      DfsInv rels names s → PathInv s path → u ∈ names →
      unvisitedCount names s < fuel →
      DfsPost rels names u path s (dfs rels names fuel u path s) := by
  intro fuel
  induction fuel with
  | zero => intro u path s _ _ _ hcount; omega
  | succ fuel ih =>
    intro u path s hinv hpinv hu hcount
    by_cases hstack : u ∈ s.stack
    · -- recursion-stack hit: record the cycle and return
      have hdfs : dfs rels names (fuel + 1) u path s =
          { s with cycles := s.cycles ++ [jsCycleOf path u] } := by
        rw [dfs, if_pos hstack]
      rw [hdfs]
      have hupath : u ∈ path := (hpinv.stack_iff u).1 hstack
      obtain ⟨q, a, hdecomp, hlast, hpairs, _⟩ := jsCycleOf_decomp hupath
      have hpathne : path ≠ [] := List.ne_nil_of_mem hupath
      have ha : a = path.getLast hpathne := hlast hpathne
      have hamem : a ∈ path := ha ▸ List.getLast_mem hpathne
      have havis : a ∈ s.visited := hpinv.sub_visited a hamem
      have huvis : u ∈ s.visited := hinv.stack_sub u hstack
      have hposle : pos u s.visited ≤ pos a s.visited := by
        rw [ha]
        exact pairwise_le_getLast hpinv.increasing hpathne hupath
      have hclosesNew : ClosesCycle (s.cycles ++ [jsCycleOf path u]) a u :=
        ⟨jsCycleOf path u, List.mem_append_right _ (List.mem_singleton_self _), q, hdecomp⟩
      refine ⟨?_, ?_, ?_, huvis, ?_, ?_, ?_⟩
      · exact ⟨rfl, ⟨[], by simp⟩, ⟨[], by simp⟩, ⟨[jsCycleOf path u], rfl⟩, ⟨[], by simp⟩⟩
      · refine ⟨hinv.visited_sub, hinv.stack_sub, hinv.finished_sub, hinv.visited_cases,
          hinv.stack_fin_disj, hinv.tree_lt, ?_, ?_, ?_⟩
        · intro x y hxy
          obtain ⟨c', hc', q', hq'⟩ := hxy
          rcases List.mem_append.1 hc' with hc1 | hc1
          · exact hinv.closing_le x y ⟨c', hc1, q', hq'⟩
          · have hcc : c' = jsCycleOf path u := List.mem_singleton.1 hc1
            rw [hcc, hdecomp] at hq'
            obtain ⟨hxa, hyu⟩ := lastTwo_inj hq'.symm
            subst hxa; subst hyu
            exact ⟨havis, huvis, hposle⟩
        · intro c' hc'
          rcases List.mem_append.1 hc' with hc1 | hc1
          · obtain ⟨q', x, y, hq', hp⟩ := hinv.cycle_tail c' hc1
            exact ⟨q', x, y, hq', hp⟩
          · have hcc : c' = jsCycleOf path u := List.mem_singleton.1 hc1
            exact ⟨q, a, u, hcc.trans hdecomp,
              fun p hp => hpinv.pairs_tree p (hpairs p hp)⟩
        · intro x hx r hr hfrom hto
          rcases hinv.fin_classified x hx r hr hfrom hto with h1 | h1
          · exact Or.inl (h1.mono _)
          · exact Or.inr h1
      · exact ⟨hpinv.stack_iff, hpinv.pairs_tree, hpinv.increasing, hpinv.sub_visited⟩
      · intro _
        refine ⟨rfl, rfl, rfl, ?_⟩
        intro hne
        have : path.getLast hne = a := by rw [ha]
        rw [this]
        exact hclosesNew
      · intro h; exact absurd hstack h
      · intro h; exact absurd (hinv.stack_sub u hstack) h
    · by_cases hvis : u ∈ s.visited
      · -- already visited and off the stack: no-op
        have hdfs : dfs rels names (fuel + 1) u path s = s := by
          rw [dfs, if_neg hstack, if_pos hvis]
        rw [hdfs]
        exact ⟨DfsExt.refl s, hinv, hpinv, hvis,
          fun h => absurd h hstack, fun _ _ => rfl, fun h => absurd hvis h⟩
      · -- descend
        have hdfs : dfs rels names (fuel + 1) u path s =
            (fun s2 : DfsState =>
              { s2 with stack := s2.stack.erase u, finished := s2.finished ++ [u] })
              ((rels.filter (fun r => r.efrom == u)).foldl
                (fun acc r =>
                  if r.eto ∈ names then dfs rels names fuel r.eto (path ++ [u]) acc
                  else acc)
                { s with visited := s.visited ++ [u], stack := u :: s.stack,
                         tree := s.tree ++ path.getLast?.toList.map (fun p => (p, u)) }) := by
          rw [dfs, if_neg hstack, if_neg hvis]
        set F : DfsState → EntityRelation → DfsState :=
          fun acc r =>
            if r.eto ∈ names then dfs rels names fuel r.eto (path ++ [u]) acc else acc
          with hF
        have hnewtree : ∀ p ∈ path.getLast?.toList.map (fun p => (p, u)),
            ∃ p₀, p = (p₀, u) ∧ p₀ ∈ path := by
          intro p hp
          cases hgl : path.getLast? with
          | none => rw [hgl] at hp; cases hp
          | some p₀ =>
            rw [hgl] at hp
            simp only [Option.toList_some, List.map_cons, List.map_nil] at hp
            exact ⟨p₀, List.mem_singleton.1 hp,
              List.mem_of_mem_getLast? (by rw [hgl]; simp)⟩
        have hu_notfin : u ∉ s.finished := fun hf => hvis (hinv.finished_sub u hf)
        have inv1 : DfsInv rels names
            { s with
              visited := s.visited ++ [u]
              stack := u :: s.stack
              tree := s.tree ++ path.getLast?.toList.map (fun p => (p, u)) } := by
          refine ⟨?_, ?_, ?_, ?_, ?_, ?_, ?_, ?_, ?_⟩
          · intro x hx
            rcases List.mem_append.1 hx with h1 | h1
            · exact hinv.visited_sub x h1
            · rw [List.mem_singleton.1 h1]; exact hu
          · intro x hx
            rcases List.mem_cons.1 hx with h1 | h1
            · rw [h1]; exact List.mem_append_right _ (List.mem_singleton_self _)
            · exact List.mem_append_left _ (hinv.stack_sub x h1)
          · intro x hx
            exact List.mem_append_left _ (hinv.finished_sub x hx)
          · intro x hx
            rcases List.mem_append.1 hx with h1 | h1
            · rcases hinv.visited_cases x h1 with h2 | h2
              · exact Or.inl (List.mem_cons_of_mem _ h2)
              · exact Or.inr h2
            · rw [List.mem_singleton.1 h1]
              exact Or.inl (List.mem_cons_self _ _)
          · intro x hx
            rcases List.mem_cons.1 hx with h1 | h1
            · rw [h1]; exact hu_notfin
            · exact hinv.stack_fin_disj x h1
          · intro p hp
            rcases List.mem_append.1 hp with h1 | h1
            · obtain ⟨ha1, ha2, hlt⟩ := hinv.tree_lt p h1
              exact ⟨List.mem_append_left _ ha1, List.mem_append_left _ ha2, by
                rw [pos_append_of_mem _ ha1, pos_append_of_mem _ ha2]; exact hlt⟩
            · obtain ⟨p₀, hpe, hp₀⟩ := hnewtree p h1
              have h₀vis : p₀ ∈ s.visited := hpinv.sub_visited p₀ hp₀
              subst hpe
              refine ⟨List.mem_append_left _ h₀vis,
                List.mem_append_right _ (List.mem_singleton_self _), ?_⟩
              show pos p₀ (s.visited ++ [u]) < pos u (s.visited ++ [u])
              rw [pos_append_of_mem _ h₀vis, pos_append_of_not_mem _ hvis]
              have hposlt := pos_lt_length h₀vis
              simp only [pos, if_pos rfl]
              omega
          · intro x y hxy
            obtain ⟨hx, hy, hle⟩ := hinv.closing_le x y hxy
            exact ⟨List.mem_append_left _ hx, List.mem_append_left _ hy, by
              rw [pos_append_of_mem _ hx, pos_append_of_mem _ hy]; exact hle⟩
          · intro c hc
            obtain ⟨q, x, y, hq, hp⟩ := hinv.cycle_tail c hc
            exact ⟨q, x, y, hq, fun p hpm => List.mem_append_left _ (hp p hpm)⟩
          · intro x hx r hr hfrom hto
            exact hinv.fin_classified x hx r hr hfrom hto
        have pinv1 : PathInv
            { s with
              visited := s.visited ++ [u]
              stack := u :: s.stack
              tree := s.tree ++ path.getLast?.toList.map (fun p => (p, u)) }
            (path ++ [u]) := by
          refine ⟨?_, ?_, ?_, ?_⟩
          · intro x
            constructor
            · intro hx
              rcases List.mem_cons.1 hx with h1 | h1
              · rw [h1]; exact List.mem_append_right _ (List.mem_singleton_self _)
              · exact List.mem_append_left _ ((hpinv.stack_iff x).1 h1)
            · intro hx
              rcases List.mem_append.1 hx with h1 | h1
              · exact List.mem_cons_of_mem _ ((hpinv.stack_iff x).2 h1)
              · rw [List.mem_singleton.1 h1]; exact List.mem_cons_self _ _
          · intro p hp
            rw [cyclePairs_concat] at hp
            rcases List.mem_append.1 hp with h1 | h1
            · exact List.mem_append_left _ (hpinv.pairs_tree p h1)
            · exact List.mem_append_right _ h1
          · show List.Pairwise
              (fun a b => pos a (s.visited ++ [u]) < pos b (s.visited ++ [u]))
              (path ++ [u])
            rw [List.pairwise_append]
            refine ⟨?_, List.pairwise_singleton _ _, ?_⟩
            · refine hpinv.increasing.imp_of_mem ?_
              intro a b hamem hbmem hlt
              rw [pos_append_of_mem _ (hpinv.sub_visited a hamem),
                pos_append_of_mem _ (hpinv.sub_visited b hbmem)]
              exact hlt
            · intro a hamem b hbmem
              rw [List.mem_singleton.1 hbmem]
              have havis := hpinv.sub_visited a hamem
              rw [pos_append_of_mem _ havis, pos_append_of_not_mem _ hvis]
              have hposlt := pos_lt_length havis
              simp only [pos, if_pos rfl]
              omega
          · intro x hx
            rcases List.mem_append.1 hx with h1 | h1
            · exact List.mem_append_left _ (hpinv.sub_visited x h1)
            · rw [List.mem_singleton.1 h1]
              exact List.mem_append_right _ (List.mem_singleton_self _)
        have hcount1 : unvisitedCount names
            { s with
              visited := s.visited ++ [u]
              stack := u :: s.stack
              tree := s.tree ++ path.getLast?.toList.map (fun p => (p, u)) } < fuel := by
          have h1 := @unvisitedCount_strict names s.visited u hu hvis
          unfold unvisitedCount at hcount ⊢
          simp only at h1 hcount ⊢
          omega
        have foldLemma : ∀ (rl : List EntityRelation) (acc : DfsState),
            DfsInv rels names acc → PathInv acc (path ++ [u]) →
            unvisitedCount names acc < fuel →
            DfsExt acc (rl.foldl F acc) ∧ DfsInv rels names (rl.foldl F acc) ∧
            PathInv (rl.foldl F acc) (path ++ [u]) ∧
            unvisitedCount names (rl.foldl F acc) < fuel ∧
            ∀ r ∈ rl, r.eto ∈ names →
              ClosesCycle (rl.foldl F acc).cycles u r.eto ∨
              r.eto ∈ (rl.foldl F acc).finished := by
          intro rl
          induction rl with
          | nil =>
            intro acc h1 h2 h3
            simp only [List.foldl_nil]
            exact ⟨DfsExt.refl acc, h1, h2, h3,
              fun r hr => absurd hr (List.not_mem_nil r)⟩
          | cons r rl ihf =>
            intro acc h1 h2 h3
            simp only [List.foldl_cons]
            by_cases hr : r.eto ∈ names
            · have hFr : F acc r = dfs rels names fuel r.eto (path ++ [u]) acc := by
                rw [hF]; simp only [if_pos hr]
              rw [hFr]
              have post := ih r.eto (path ++ [u]) acc h1 h2 hr h3
              have hcmid :
                  unvisitedCount names (dfs rels names fuel r.eto (path ++ [u]) acc)
                    < fuel :=
                lt_of_le_of_lt post.ext.unvisitedCount_le h3
              obtain ⟨fext, finv, fpinv, fcount, fclass⟩ :=
                ihf (dfs rels names fuel r.eto (path ++ [u]) acc) post.inv post.pinv hcmid
              refine ⟨post.ext.trans fext, finv, fpinv, fcount, ?_⟩
              intro r' hr' hr'to
              rcases List.mem_cons.1 hr' with h4 | h4
              · subst h4
                by_cases hst : r'.eto ∈ acc.stack
                · obtain ⟨_, _, _, hcl⟩ := post.stackHit hst
                  have hne : path ++ [u] ≠ [] := by simp
                  have hthis := hcl hne
                  rw [List.getLast_concat] at hthis
                  exact Or.inl (fext.closes hthis)
                · by_cases hv : r'.eto ∈ acc.visited
                  · have hmid := post.visitedHit hst hv
                    rcases h1.visited_cases _ hv with h5 | h5
                    · exact absurd h5 hst
                    · refine Or.inr (fext.finished_mem ?_)
                      rw [hmid]
                      exact h5
                  · exact Or.inr (fext.finished_mem (post.descend hv))
              · exact fclass r' h4 hr'to
            · have hFr : F acc r = acc := by
                rw [hF]; simp only [if_neg hr]
              rw [hFr]
              obtain ⟨fext, finv, fpinv, fcount, fclass⟩ := ihf acc h1 h2 h3
              refine ⟨fext, finv, fpinv, fcount, ?_⟩
              intro r' hr' hr'to
              rcases List.mem_cons.1 hr' with h4 | h4
              · subst h4; exact absurd hr'to hr
              · exact fclass r' h4 hr'to
        obtain ⟨foldExt, foldInv, foldPinv, foldCount, foldClass⟩ :=
          foldLemma (rels.filter (fun r => r.efrom == u))
            { s with
              visited := s.visited ++ [u]
              stack := u :: s.stack
              tree := s.tree ++ path.getLast?.toList.map (fun p => (p, u)) }
            inv1 pinv1 hcount1
        rw [hdfs]
        set s2 := (rels.filter (fun r => r.efrom == u)).foldl F
          { s with
            visited := s.visited ++ [u]
            stack := u :: s.stack
            tree := s.tree ++ path.getLast?.toList.map (fun p => (p, u)) } with hs2
        show DfsPost rels names u path s
          { s2 with stack := s2.stack.erase u, finished := s2.finished ++ [u] }
        have hstack2 : s2.stack = u :: s.stack := foldExt.stack_eq
        have herase : s2.stack.erase u = s.stack := by
          rw [hstack2, List.erase_cons_head]
        have hu_s2stack : u ∈ s2.stack := by
          rw [hstack2]; exact List.mem_cons_self _ _
        have hu_notfin2 : u ∉ s2.finished := foldInv.stack_fin_disj u hu_s2stack
        have hu_vis2 : u ∈ s2.visited :=
          foldExt.visited_mem (List.mem_append_right _ (List.mem_singleton_self _))
        obtain ⟨eV, heV⟩ := foldExt.visited
        obtain ⟨eF, heF⟩ := foldExt.finished
        obtain ⟨eC, heC⟩ := foldExt.cycles
        obtain ⟨eT, heT⟩ := foldExt.tree
        have heV' : s2.visited = s.visited ++ ([u] ++ eV) := by
          rw [heV]; simp
        have heF' : s2.finished = s.finished ++ eF := by
          rw [heF]
        have heC' : s2.cycles = s.cycles ++ eC := by
          rw [heC]
        have hsvis_sub : ∀ x ∈ s.visited, x ∈ s2.visited := by
          intro x hx
          rw [heV']; exact List.mem_append_left _ hx
        refine ⟨?_, ?_, ?_, hu_vis2, ?_, ?_, ?_⟩
        · refine ⟨herase, ⟨[u] ++ eV, heV'⟩, ⟨eF ++ [u], ?_⟩, ⟨eC, heC'⟩, ?_⟩
          · show s2.finished ++ [u] = s.finished ++ (eF ++ [u])
            rw [heF', List.append_assoc]
          · refine ⟨path.getLast?.toList.map (fun p => (p, u)) ++ eT, ?_⟩
            show s2.tree = s.tree ++ _
            rw [heT]; simp
        · refine ⟨foldInv.visited_sub, ?_, ?_, ?_, ?_, foldInv.tree_lt,
            foldInv.closing_le, foldInv.cycle_tail, ?_⟩
          · intro x hx
            rw [herase] at hx
            exact foldInv.stack_sub x (by rw [hstack2]; exact List.mem_cons_of_mem _ hx)
          · intro x hx
            rcases List.mem_append.1 hx with h1 | h1
            · exact foldInv.finished_sub x h1
            · rw [List.mem_singleton.1 h1]; exact hu_vis2
          · intro x hx
            rcases foldInv.visited_cases x hx with h1 | h1
            · rw [hstack2] at h1
              rcases List.mem_cons.1 h1 with h2 | h2
              · rw [h2]
                exact Or.inr (List.mem_append_right _ (List.mem_singleton_self _))
              · refine Or.inl ?_
                show x ∈ s2.stack.erase u
                rw [herase]; exact h2
            · exact Or.inr (List.mem_append_left _ h1)
          · intro x hx
            have hx' : x ∈ s.stack := by rw [← herase]; exact hx
            intro hmem
            rcases List.mem_append.1 hmem with h1 | h1
            · exact foldInv.stack_fin_disj x
                (by rw [hstack2]; exact List.mem_cons_of_mem _ hx') h1
            · rw [List.mem_singleton.1 h1] at hx'
              exact hstack hx'
          · intro x hx r hr hfrom hto
            rcases List.mem_append.1 hx with h1 | h1
            · rcases foldInv.fin_classified x h1 r hr hfrom hto with h2 | h2
              · exact Or.inl h2
              · exact Or.inr (h2.append [u])
            · rw [List.mem_singleton.1 h1] at hfrom ⊢
              have hrmem : r ∈ rels.filter (fun r => r.efrom == u) :=
                List.mem_filter.2 ⟨hr, beq_iff_eq.2 hfrom⟩
              rcases foldClass r hrmem hto with h2 | h2
              · exact Or.inl h2
              · exact Or.inr (Before.of_mem_append h2 hu_notfin2)
        · refine ⟨?_, ?_, ?_, ?_⟩
          · intro x
            show x ∈ s2.stack.erase u ↔ x ∈ path
            rw [herase]
            exact hpinv.stack_iff x
          · intro p hp
            have h1 : p ∈ s.tree := hpinv.pairs_tree p hp
            show p ∈ s2.tree
            rw [heT]
            exact List.mem_append_left _ (List.mem_append_left _ h1)
          · show List.Pairwise
              (fun a b => pos a s2.visited < pos b s2.visited) path
            refine hpinv.increasing.imp_of_mem ?_
            intro a b hamem hbmem hlt
            rw [heV', pos_append_of_mem _ (hpinv.sub_visited a hamem),
              pos_append_of_mem _ (hpinv.sub_visited b hbmem)]
            exact hlt
          · intro x hx
            exact hsvis_sub x (hpinv.sub_visited x hx)
        · intro h; exact absurd h hstack
        · intro _ h; exact absurd h hvis
        · intro _
          exact List.mem_append_right _ (List.mem_singleton_self _)

/-- The detector's top-level fold, one entity at a time. -/
theorem runDfs_fold (rels : List EntityRelation) (names : List String) :
    ∀ (l : List String) (s : DfsState), (∀ x ∈ l, x ∈ names) →
      DfsInv rels names s → PathInv s [] →
      DfsInv rels names
        (l.foldl (fun s n =>
          if n ∈ s.visited then s else dfs rels names (names.length + 1) n [] s) s) ∧
      PathInv
        (l.foldl (fun s n =>
          if n ∈ s.visited then s else dfs rels names (names.length + 1) n [] s) s) [] ∧
      DfsExt s
        (l.foldl (fun s n =>
          if n ∈ s.visited then s else dfs rels names (names.length + 1) n [] s) s) ∧
      ∀ n ∈ l, n ∈
        (l.foldl (fun s n =>
          if n ∈ s.visited then s else dfs rels names (names.length + 1) n [] s) s).visited := by
  intro l
  induction l with
  | nil =>
    intro s _ h1 h2
    exact ⟨h1, h2, DfsExt.refl s, fun n hn => absurd hn (List.not_mem_nil n)⟩
  | cons n l ihl =>
    intro s hsub h1 h2
    simp only [List.foldl_cons]
    by_cases hn : n ∈ s.visited
    · rw [if_pos hn]
      obtain ⟨g1, g2, g3, g4⟩ := ihl s (fun x hx => hsub x (List.mem_cons_of_mem _ hx)) h1 h2
      refine ⟨g1, g2, g3, ?_⟩
      intro m hm
      rcases List.mem_cons.1 hm with hm1 | hm1
      · subst hm1; exact g3.visited_mem hn
      · exact g4 m hm1
    · rw [if_neg hn]
      have hcount : unvisitedCount names s < names.length + 1 :=
        Nat.lt_succ_of_le (List.length_filter_le _ _)
      have post := dfs_spec rels names (names.length + 1) n [] s h1 h2
        (hsub n (List.mem_cons_self _ _)) hcount
      obtain ⟨g1, g2, g3, g4⟩ := ihl _ (fun x hx => hsub x (List.mem_cons_of_mem _ hx))
        post.inv post.pinv
      refine ⟨g1, g2, post.ext.trans g3, ?_⟩
      intro m hm
      rcases List.mem_cons.1 hm with hm1 | hm1
      · subst hm1; exact g3.visited_mem post.u_visited
      · exact g4 m hm1

/-- Correctness of the detector's DFS phase: the final state satisfies the
global invariant, the recursion stack is empty, and every entity name is in
the finish order. -/
theorem runDfs_spec (rels : List EntityRelation) (names : List String) :
    DfsInv rels names (runDfs rels names) ∧
    (runDfs rels names).stack = [] ∧
    ∀ n ∈ names, n ∈ (runDfs rels names).finished := by
  have hrun : runDfs rels names =
      names.foldl (fun s n =>
        if n ∈ s.visited then s else dfs rels names (names.length + 1) n [] s)
        DfsState.init := rfl
  rw [hrun]
  obtain ⟨g1, g2, _, g4⟩ := runDfs_fold rels names names DfsState.init
    (fun x hx => hx) (dfsInv_init rels names) pathInv_init
  have hstack :
      (names.foldl (fun s n =>
        if n ∈ s.visited then s else dfs rels names (names.length + 1) n [] s)
        DfsState.init).stack = [] := by
    refine List.eq_nil_iff_forall_not_mem.2 ?_
    intro x hx
    exact absurd ((g2.stack_iff x).1 hx) (List.not_mem_nil x)
  refine ⟨g1, hstack, ?_⟩
  intro n hn
  rcases g1.visited_cases n (g4 n hn) with h1 | h1
  · rw [hstack] at h1; cases h1
  · exact h1

/-! ## Cycle-breaking analysis -/

theorem cyclePairs_last (q : List String) (u v : String) :
    cyclePairs (q ++ [u, v]) = cyclePairs (q ++ [u]) ++ [(u, v)] := by
  have h1 : q ++ [u, v] = (q ++ [u]) ++ [v] := by simp
  rw [h1, cyclePairs_concat, List.getLast?_concat]
  rfl

theorem isCycleBroken_iff (b : BreakState) (c : List String) :
    isCycleBroken b c = true ↔
      ∃ p ∈ cyclePairs c, relationKey p.1 p.2 ∈ b.brokenKeys := by
  unfold isCycleBroken
  rw [List.any_eq_true]
  constructor
  · rintro ⟨p, hp, hmem⟩
    exact ⟨p, hp, List.elem_iff.1 hmem⟩
  · rintro ⟨p, hp, hmem⟩
    exact ⟨p, hp, List.elem_iff.2 hmem⟩

theorem breakStep_spec {rels : List EntityRelation} {names : List String}
    {d : DfsState} (hinv : DfsInv rels names d)
    (hg : ∀ n ∈ names, GoodName n) (b : BreakState) (hb : BreakInv d b)
    {c : List String} (hc : c ∈ d.cycles) :
    BreakInv d (breakStep b c) ∧
    (∃ e, (breakStep b c).circ = b.circ ++ e) ∧
    ∀ q u v, c = q ++ [u, v] → u ≠ v → (u, v) ∈ (breakStep b c).circ := by
  obtain ⟨q₀, u₀, v₀, hdecomp, htail⟩ := hinv.cycle_tail c hc
  have hclose₀ : ClosesCycle d.cycles u₀ v₀ := ⟨c, hc, q₀, hdecomp⟩
  obtain ⟨hu₀vis, hv₀vis, hle₀⟩ := hinv.closing_le u₀ v₀ hclose₀
  have hu₀names : u₀ ∈ names := hinv.visited_sub _ hu₀vis
  have hv₀names : v₀ ∈ names := hinv.visited_sub _ hv₀vis
  have hlen : c.length = q₀.length + 2 := by rw [hdecomp]; simp
  by_cases hbr : isCycleBroken b c = true
  · -- skipped: some consecutive pair of `c` is keyed in `brokenKeys`;
    -- it can only be the closing pair, which is hence already broken.
    have hstep : breakStep b c = b := by rw [breakStep, if_pos hbr]
    obtain ⟨p, hp, hkey⟩ := (isCycleBroken_iff b c).1 hbr
    rw [hb.1, List.mem_map] at hkey
    obtain ⟨pr, hpr, hkeyeq⟩ := hkey
    obtain ⟨hprclose, hprne⟩ := hb.2 pr hpr
    obtain ⟨hpr1vis, hpr2vis, hprle⟩ := hinv.closing_le pr.1 pr.2 hprclose
    have hpr1names : pr.1 ∈ names := hinv.visited_sub _ hpr1vis
    have hpmem : p ∈ cyclePairs (q₀ ++ [u₀]) ++ [(u₀, v₀)] := by
      rw [← cyclePairs_last, ← hdecomp]; exact hp
    have hpuv : p = (u₀, v₀) := by
      rcases List.mem_append.1 hpmem with h1 | h1
      · exfalso
        have hptree : p ∈ d.tree := htail p h1
        obtain ⟨hp1vis, hp2vis, hplt⟩ := hinv.tree_lt p hptree
        have hp1names : p.1 ∈ names := hinv.visited_sub _ hp1vis
        obtain ⟨heq1, heq2⟩ := relationKey_inj (hg _ hpr1names).2 (hg _ hp1names).2 hkeyeq
        rw [heq1, heq2] at hprle
        omega
      · exact List.mem_singleton.1 h1
    have hkeyeq2 : relationKey pr.1 pr.2 = relationKey u₀ v₀ := by
      rw [hkeyeq, hpuv]
    obtain ⟨he1, he2⟩ :=
      relationKey_inj (hg _ hpr1names).2 (hg _ hu₀names).2 hkeyeq2
    have hpruv : pr = (u₀, v₀) := Prod.ext he1 he2
    refine ⟨by rw [hstep]; exact hb, ⟨[], by rw [hstep]; simp⟩, ?_⟩
    intro q u v hquv hne
    obtain ⟨hequ, heqv⟩ := lastTwo_inj (hquv.symm.trans hdecomp)
    rw [hstep, hequ, heqv, ← hpruv]
    exact hpr
  · have hdrop : c.drop (c.length - 2) = [u₀, v₀] := by
      rw [hdecomp]
      have h2 : (q₀ ++ [u₀, v₀]).length - 2 = q₀.length := by simp
      rw [h2, List.drop_left]
    -- not yet broken: the closing edge is added exactly when its endpoints differ
    by_cases hne₀ : u₀ ≠ v₀
    · have hguard : u₀ ≠ "" ∧ v₀ ≠ "" ∧ u₀ ≠ v₀ :=
        ⟨(hg _ hu₀names).1, (hg _ hv₀names).1, hne₀⟩
      have hstep : breakStep b c =
          { brokenKeys := b.brokenKeys ++ [relationKey u₀ v₀],
            circ := b.circ ++ [(u₀, v₀)] } := by
        rw [breakStep, if_neg hbr, if_pos (show 2 ≤ c.length by omega), hdrop]
        show (if u₀ ≠ "" ∧ v₀ ≠ "" ∧ u₀ ≠ v₀ then
            ({ brokenKeys := b.brokenKeys ++ [relationKey u₀ v₀],
               circ := b.circ ++ [(u₀, v₀)] } : BreakState) else b) = _
        rw [if_pos hguard]
      rw [hstep]
      refine ⟨⟨?_, ?_⟩, ⟨[(u₀, v₀)], rfl⟩, ?_⟩
      · show b.brokenKeys ++ [relationKey u₀ v₀] =
          (b.circ ++ [(u₀, v₀)]).map (fun p => relationKey p.1 p.2)
        rw [List.map_append, hb.1]
        rfl
      · intro pr hpr
        rcases List.mem_append.1 hpr with h1 | h1
        · exact hb.2 pr h1
        · rw [List.mem_singleton.1 h1]
          exact ⟨hclose₀, hne₀⟩
      · intro q u v hquv hne
        obtain ⟨hequ, heqv⟩ := lastTwo_inj (hquv.symm.trans hdecomp)
        rw [hequ, heqv]
        exact List.mem_append_right _ (List.mem_singleton_self _)
    · -- self-loop closing edge: nothing is broken, and nothing needs to be
      push_neg at hne₀
      have hstep : breakStep b c = b := by
        rw [breakStep, if_neg hbr, if_pos (show 2 ≤ c.length by omega), hdrop]
        show (if u₀ ≠ "" ∧ v₀ ≠ "" ∧ u₀ ≠ v₀ then
            ({ brokenKeys := b.brokenKeys ++ [relationKey u₀ v₀],
               circ := b.circ ++ [(u₀, v₀)] } : BreakState) else b) = _
        rw [if_neg (by simp [hne₀])]
      rw [hstep]
      refine ⟨hb, ⟨[], by simp⟩, ?_⟩
      intro q u v hquv hne
      obtain ⟨hequ, heqv⟩ := lastTwo_inj (hquv.symm.trans hdecomp)
      rw [hequ, heqv] at hne
      exact absurd hne₀ hne

theorem breakFold_spec {rels : List EntityRelation} {names : List String}
    {d : DfsState} (hinv : DfsInv rels names d)
    (hg : ∀ n ∈ names, GoodName n) :
    ∀ (cs : List (List String)) (b : BreakState),
      (∀ c ∈ cs, c ∈ d.cycles) → BreakInv d b →
      BreakInv d (cs.foldl breakStep b) ∧
      (∃ e, (cs.foldl breakStep b).circ = b.circ ++ e) ∧
      ∀ c ∈ cs, ∀ q u v, c = q ++ [u, v] → u ≠ v →
        (u, v) ∈ (cs.foldl breakStep b).circ := by
  intro cs
  induction cs with
  | nil =>
    intro b _ hb
    exact ⟨hb, ⟨[], by simp⟩, fun c hc => absurd hc (List.not_mem_nil c)⟩
  | cons c cs ihc =>
    intro b hmem hb
    simp only [List.foldl_cons]
    obtain ⟨sb, sext, sclose⟩ :=
      breakStep_spec hinv hg b hb (hmem c (List.mem_cons_self _ _))
    obtain ⟨fb, fext, fclose⟩ := ihc (breakStep b c)
      (fun c' hc' => hmem c' (List.mem_cons_of_mem _ hc')) sb
    refine ⟨fb, ?_, ?_⟩
    · obtain ⟨e1, he1⟩ := sext
      obtain ⟨e2, he2⟩ := fext
      exact ⟨e1 ++ e2, by rw [he2, he1, List.append_assoc]⟩
    · intro c' hc' q u v hquv hne
      rcases List.mem_cons.1 hc' with h1 | h1
      · subst h1
        obtain ⟨e2, he2⟩ := fext
        rw [he2]
        exact List.mem_append_left _ (sclose q u v hquv hne)
      · exact fclose c' h1 q u v hquv hne

/-- Membership in the sorted cycle list coincides with membership in the
collected cycle list. -/
theorem mem_sortCycles {cs : List (List String)} {c : List String} :
    c ∈ sortCyclesByLengthDesc cs ↔ c ∈ cs :=
  (List.perm_insertionSort _ cs).mem_iff

/-- Every broken pair closes a detected cycle and has distinct endpoints;
every closing pair with distinct endpoints is broken.  This is the exact
characterization of the broken-edge set (for parser-produced entity
names). -/
theorem detect_characterization (rels : List EntityRelation) (names : List String)
    (hg : ∀ n ∈ names, GoodName n) :
    (∀ pr ∈ detectCircularReferences rels names,
      ClosesCycle (runDfs rels names).cycles pr.1 pr.2 ∧ pr.1 ≠ pr.2) ∧
    ∀ c ∈ (runDfs rels names).cycles, ∀ q u v, c = q ++ [u, v] → u ≠ v →
      (u, v) ∈ detectCircularReferences rels names := by
  obtain ⟨hinv, _, _⟩ := runDfs_spec rels names
  obtain ⟨fb, _, fcomplete⟩ := breakFold_spec hinv hg
    (sortCyclesByLengthDesc (runDfs rels names).cycles) ⟨[], []⟩
    (fun c hc => mem_sortCycles.1 hc)
    ⟨rfl, fun pr hpr => absurd hpr (List.not_mem_nil pr)⟩
  constructor
  · intro pr hpr
    exact fb.2 pr hpr
  · intro c hc q u v hquv hne
    exact fcomplete c (mem_sortCycles.2 hc) q u v hquv hne

/-- Every residual edge strictly decreases the DFS finish position. -/
theorem residualStep_decreases (rels : List EntityRelation) (names : List String)
    (hg : ∀ n ∈ names, GoodName n) {a b : String}
    (h : ResidualStep rels names (detectCircularReferences rels names) a b) :
    pos b (runDfs rels names).finished < pos a (runDfs rels names).finished := by
  obtain ⟨⟨r, hr, hfrom, hto⟩, han, hbn, hne, hnc⟩ := h
  obtain ⟨hinv, _, hfin⟩ := runDfs_spec rels names
  have hclass := hinv.fin_classified a (hfin a han) r hr hfrom (hto ▸ hbn)
  rcases hclass with h1 | h1
  · exfalso
    obtain ⟨c, hc, q, hq⟩ := h1
    have hmem : (a, r.eto) ∈ detectCircularReferences rels names :=
      (detect_characterization rels names hg).2 c hc q a r.eto hq
        (by rw [hto]; exact hne)
    rw [hto] at hmem
    exact hnc hmem
  · rw [← hto]
    exact h1.2.2

/-- Along a chain of measure-decreasing steps, every chain element has a
strictly smaller measure than the start. -/
theorem chain_measure_lt {R : String → String → Prop} {f : String → Nat}
    (hR : ∀ x y, R x y → f y < f x) :
    ∀ (a : String) (l : List String), List.Chain R a l → ∀ x ∈ l, f x < f a := by
  intro a l
  induction l generalizing a with
  | nil => intro _ x hx; cases hx
  | cons b l ihl =>
    intro hchain x hx
    rw [List.chain_cons] at hchain
    rcases List.mem_cons.1 hx with h1 | h1
    · rw [h1]; exact hR a b hchain.1
    · exact lt_trans (ihl b hchain.2 x h1) (hR a b hchain.1)

/-- C1 (amended): with parser-produced entity names, every detected cycle
whose closing edge is not a self-loop has an edge in the broken-edge set,
broken edges are never self-loops, and the subgraph of non-broken,
non-self-loop relation edges is acyclic. -/
theorem c1_cycle_breaking_amended (rels : List EntityRelation) (names : List String)
    (hg : ∀ n ∈ names, GoodName n) :
    (∀ c ∈ (runDfs rels names).cycles, ∀ q u v, c = q ++ [u, v] → u ≠ v →
      ∃ p ∈ cyclePairs c, p ∈ detectCircularReferences rels names) ∧
    (∀ pr ∈ detectCircularReferences rels names, pr.1 ≠ pr.2) ∧
    ∀ (a : String) (l : List String) (hne : l ≠ []),
      List.Chain (ResidualStep rels names (detectCircularReferences rels names)) a l →
      l.getLast hne ≠ a := by
  obtain ⟨hsub, hcomplete⟩ := detect_characterization rels names hg
  refine ⟨?_, ?_, ?_⟩
  · intro c hc q u v hquv hne
    refine ⟨(u, v), ?_, hcomplete c hc q u v hquv hne⟩
    rw [hquv, cyclePairs_last]
    exact List.mem_append_right _ (List.mem_singleton_self _)
  · intro pr hpr
    exact (hsub pr hpr).2
  · intro a l hne hchain heq
    have hlt := @chain_measure_lt
      (ResidualStep rels names (detectCircularReferences rels names))
      (fun x => pos x (runDfs rels names).finished)
      (fun x y hxy => residualStep_decreases rels names hg hxy)
      a l hchain (l.getLast hne) (List.getLast_mem hne)
    rw [heq] at hlt
    omega

/-- C1 counterexample: a single entity relating to itself.  The detector
records the self-cycle `["A", "A"]`, yet the broken-edge set stays empty:
the detected cycle has no edge in the broken set and the self-loop edge
survives in the residual graph, contrary to the claim. -/
theorem c1_counterexample :
    (runDfs [⟨"A", "A", "self", false⟩] ["A"]).cycles = [["A", "A"]] ∧
    ("A", "A") ∉ detectCircularReferences [⟨"A", "A", "self", false⟩] ["A"] := by
  refine ⟨rfl, ?_⟩
  rw [show detectCircularReferences [⟨"A", "A", "self", false⟩] ["A"] = [] from rfl]
  exact List.not_mem_nil _

/-- Witness for `c1_cycle_breaking_amended` on the two-entity mutual
cycle: the broken edge `(Post, User)` is not a self-loop. -/
theorem c1_witness :
    ("Post", "User") ∈ detectCircularReferences
      [⟨"User", "Post", "posts", true⟩, ⟨"Post", "User", "author", false⟩]
      ["User", "Post"] ∧
    ("Post", "User").1 ≠ ("Post", "User").2 :=
  ⟨by decide,
   (c1_cycle_breaking_amended
     [⟨"User", "Post", "posts", true⟩, ⟨"Post", "User", "author", false⟩]
     ["User", "Post"] (by decide)).2.1 ("Post", "User") (by decide)⟩

theorem drop_lastTwo (q : List String) (u v : String) :
    (q ++ [u, v]).drop ((q ++ [u, v]).length - 2) = [u, v] := by
  have h2 : (q ++ [u, v]).length - 2 = q.length := by simp
  rw [h2, List.drop_left]

/-- C7 (amended): the breaker processes the discovered cycles sorted by
length descending (stable); a cycle with an already-broken edge is skipped
unchanged; otherwise the cycle's closing edge is added — except that a
closing edge with equal endpoints (a self-loop) is never added. -/
theorem c7_breaking_procedure (cs : List (List String)) :
    breakCycles cs = (sortCyclesByLengthDesc cs).foldl breakStep ⟨[], []⟩ ∧
    List.Pairwise (fun a b : List String => b.length ≤ a.length)
      (sortCyclesByLengthDesc cs) ∧
    (sortCyclesByLengthDesc cs).Perm cs ∧
    (∀ (b : BreakState) (c : List String),
      isCycleBroken b c = true → breakStep b c = b) ∧
    (∀ (b : BreakState) (q : List String) (u v : String),
      isCycleBroken b (q ++ [u, v]) = false → u ≠ v → u ≠ "" → v ≠ "" →
      breakStep b (q ++ [u, v]) =
        { brokenKeys := b.brokenKeys ++ [relationKey u v],
          circ := b.circ ++ [(u, v)] }) ∧
    ∀ (b : BreakState) (q : List String) (u : String),
      breakStep b (q ++ [u, u]) = b := by
  haveI htot : IsTotal (List String) (fun a b : List String => b.length ≤ a.length) :=
    ⟨fun a b => le_total b.length a.length⟩
  haveI htr : IsTrans (List String) (fun a b : List String => b.length ≤ a.length) :=
    ⟨fun _ _ _ h1 h2 => le_trans h2 h1⟩
  refine ⟨rfl, ?_, List.perm_insertionSort _ cs, ?_, ?_, ?_⟩
  · exact List.sorted_insertionSort _ cs
  · intro b c hbr
    rw [breakStep, if_pos hbr]
  · intro b q u v hbr hne hu hv
    rw [breakStep, if_neg (by rw [hbr]; exact Bool.false_ne_true),
      if_pos (show 2 ≤ (q ++ [u, v]).length by simp), drop_lastTwo]
    show (if u ≠ "" ∧ v ≠ "" ∧ u ≠ v then
        ({ brokenKeys := b.brokenKeys ++ [relationKey u v],
           circ := b.circ ++ [(u, v)] } : BreakState) else b) = _
    rw [if_pos ⟨hu, hv, hne⟩]
  · intro b q u
    by_cases hbr : isCycleBroken b (q ++ [u, u]) = true
    · rw [breakStep, if_pos hbr]
    · rw [breakStep, if_neg hbr,
        if_pos (show 2 ≤ (q ++ [u, u]).length by simp), drop_lastTwo]
      show (if u ≠ "" ∧ u ≠ "" ∧ u ≠ u then
          ({ brokenKeys := b.brokenKeys ++ [relationKey u u],
             circ := b.circ ++ [(u, u)] } : BreakState) else b) = _
      rw [if_neg (by simp)]

/-- C7 counterexample: the self-cycle `["A", "A"]` is discovered and is not
skipped by the already-broken test, yet its last edge `(A, A)` is not added
to the broken set (the breaker result is empty). -/
theorem c7_counterexample :
    (runDfs [⟨"A", "A", "self", false⟩] ["A"]).cycles = [["A", "A"]] ∧
    isCycleBroken ⟨[], []⟩ ["A", "A"] = false ∧
    (breakCycles [["A", "A"]]).circ = [] ∧
    (breakCycles [["A", "A"]]).brokenKeys = [] :=
  ⟨rfl, rfl, rfl, rfl⟩

/-- Witness for `c7_breaking_procedure`: breaking the two-cycle
`["B", "A", "B"]` adds exactly its closing edge `(A, B)`. -/
theorem c7_witness :
    breakStep ⟨[], []⟩ (["B"] ++ ["A", "B"]) =
      { brokenKeys := [relationKey "A" "B"], circ := [("A", "B")] } :=
  (c7_breaking_procedure []).2.2.2.2.1 ⟨[], []⟩ ["B"] "A" "B"
    (by rfl) (by decide) (by decide) (by decide)

/-! ## Kahn-loop analysis -/

theorem adjacency_sub (rels : List EntityRelation) (names : List String)
    (c : String) : ∀ x ∈ adjacency rels names c, x ∈ names := by
  intro x hx
  unfold adjacency at hx
  rw [List.mem_map] at hx
  obtain ⟨r, hr, hre⟩ := hx
  rw [List.mem_filter] at hr
  have hr1 := hr.1
  unfold relevantRels at hr1
  rw [List.mem_filter] at hr1
  have := hr1.2
  rw [Bool.and_eq_true, decide_eq_true_eq, decide_eq_true_eq] at this
  rw [← hre]
  exact this.1

/-- Invariant of the Kahn loop: the accumulated result and queue stay
duplicate-free, inside the name set, and with non-positive working degree;
hence the final result is duplicate-free and inside the name set. -/
theorem kahnLoop_nodup_sub (rels : List EntityRelation) (names : List String) :
    ∀ (fuel : Nat) (deg : String → Int) (queue result : List String),
      (result ++ queue).Nodup → (∀ x ∈ result ++ queue, x ∈ names) →
      (∀ x ∈ result ++ queue, deg x ≤ 0) →
      (kahnLoop rels names fuel deg queue result).Nodup ∧
      ∀ x ∈ kahnLoop rels names fuel deg queue result, x ∈ names := by
  intro fuel
  induction fuel with
  | zero =>
    intro deg queue result h1 h2 _
    rw [kahnLoop]
    rw [List.nodup_append] at h1
    exact ⟨h1.1, fun x hx => h2 x (List.mem_append_left _ hx)⟩
  | succ fuel ihk =>
    intro deg queue result h1 h2 h3
    match queue with
    | [] =>
      rw [kahnLoop]
      rw [List.append_nil] at h1 h2
      exact ⟨h1, h2⟩
    | current :: rest =>
      rw [kahnLoop]
      have hassoc : result ++ current :: rest = (result ++ [current]) ++ rest := by
        rw [List.append_cons]
      rw [hassoc] at h1 h2 h3
      have foldStep : ∀ (deps : List String) (p : (String → Int) × List String),
          (∀ x ∈ deps, x ∈ names) →
          ((result ++ [current]) ++ p.2).Nodup →
          (∀ x ∈ (result ++ [current]) ++ p.2, x ∈ names) →
          (∀ x ∈ (result ++ [current]) ++ p.2, p.1 x ≤ 0) →
          ((result ++ [current]) ++
            (deps.foldl (fun (p : (String → Int) × List String) dep =>
              (Function.update p.1 dep (p.1 dep - 1),
               if p.1 dep - 1 == 0 then p.2 ++ [dep] else p.2)) p).2).Nodup ∧
          (∀ x ∈ (result ++ [current]) ++
            (deps.foldl (fun (p : (String → Int) × List String) dep =>
              (Function.update p.1 dep (p.1 dep - 1),
               if p.1 dep - 1 == 0 then p.2 ++ [dep] else p.2)) p).2, x ∈ names) ∧
          ∀ x ∈ (result ++ [current]) ++
            (deps.foldl (fun (p : (String → Int) × List String) dep =>
              (Function.update p.1 dep (p.1 dep - 1),
               if p.1 dep - 1 == 0 then p.2 ++ [dep] else p.2)) p).2,
            (deps.foldl (fun (p : (String → Int) × List String) dep =>
              (Function.update p.1 dep (p.1 dep - 1),
               if p.1 dep - 1 == 0 then p.2 ++ [dep] else p.2)) p).1 x ≤ 0 := by
        intro deps
        induction deps with
        | nil =>
          intro p _ g1 g2 g3
          exact ⟨g1, g2, g3⟩
        | cons dep deps ihd =>
          intro p hdeps g1 g2 g3
          simp only [List.foldl_cons]
          refine ihd _ (fun x hx => hdeps x (List.mem_cons_of_mem _ hx)) ?_ ?_ ?_
          · show ((result ++ [current]) ++
              (if p.1 dep - 1 == 0 then p.2 ++ [dep] else p.2)).Nodup
            by_cases hz : p.1 dep - 1 == 0
            · rw [if_pos hz]
              have hfresh : dep ∉ (result ++ [current]) ++ p.2 := by
                intro hmem
                have := g3 dep hmem
                rw [beq_iff_eq] at hz
                omega
              have heq2 : ((result ++ [current]) ++ (p.2 ++ [dep])) =
                  (((result ++ [current]) ++ p.2) ++ [dep]) :=
                (List.append_assoc _ _ _).symm
              rw [heq2]
              exact List.Nodup.append g1 (List.nodup_singleton dep)
                (by simpa using hfresh)
            · rw [if_neg hz]
              exact g1
          · show ∀ x ∈ (result ++ [current]) ++
              (if p.1 dep - 1 == 0 then p.2 ++ [dep] else p.2), x ∈ names
            by_cases hz : p.1 dep - 1 == 0
            · rw [if_pos hz]
              intro x hx
              rcases List.mem_append.1 hx with hx1 | hx1
              · exact g2 x (List.mem_append_left _ hx1)
              · rcases List.mem_append.1 hx1 with hx2 | hx2
                · exact g2 x (List.mem_append_right _ hx2)
                · rw [List.mem_singleton.1 hx2]
                  exact hdeps dep (List.mem_cons_self _ _)
            · rw [if_neg hz]
              exact g2
          · show ∀ x ∈ (result ++ [current]) ++
              (if p.1 dep - 1 == 0 then p.2 ++ [dep] else p.2),
              Function.update p.1 dep (p.1 dep - 1) x ≤ 0
            by_cases hz : p.1 dep - 1 == 0
            · rw [if_pos hz]
              intro x hx
              by_cases hxd : x = dep
              · subst hxd
                rw [Function.update_same]
                rw [beq_iff_eq] at hz
                omega
              · rw [Function.update_noteq hxd]
                have hx' : x ∈ (result ++ [current]) ++ p.2 := by
                  rcases List.mem_append.1 hx with hx1 | hx1
                  · exact List.mem_append_left _ hx1
                  · rcases List.mem_append.1 hx1 with hx2 | hx2
                    · exact List.mem_append_right _ hx2
                    · exact absurd (List.mem_singleton.1 hx2) hxd
                exact g3 x hx'
            · rw [if_neg hz]
              intro x hx
              by_cases hxd : x = dep
              · subst hxd
                rw [Function.update_same]
                rw [beq_iff_eq] at hz
                have := g3 x hx
                omega
              · rw [Function.update_noteq hxd]
                exact g3 x hx
      obtain ⟨f1, f2, f3⟩ := foldStep (adjacency rels names current) (deg, rest)
        (adjacency_sub rels names current)
        h1 h2
        (fun x hx => h3 x hx)
      exact ihk _ _ _ f1 f2 f3

/-- C2 (amended): the emitted order is not invariant under permutations of
the arrival order (see the counterexample), but it always emits exactly the
entity set: for a duplicate-free name set, the computed order is a
permutation of the names. -/
theorem c2_order_dependence_amended (rels : List EntityRelation) (names : List String)
    (hnd : names.Nodup) :
    (sortEntitiesByDependency rels names).Perm names := by
  have hout : sortEntitiesByDependency rels names =
      kahnLoop rels names (names.length + rels.length + 1)
        (inDegree rels names) (initQueue rels names) [] ++
      remainderSort rels names
        (names.filter (fun n => decide (n ∉
          kahnLoop rels names (names.length + rels.length + 1)
            (inDegree rels names) (initQueue rels names) []))) := rfl
  set result := kahnLoop rels names (names.length + rels.length + 1)
    (inDegree rels names) (initQueue rels names) [] with hresult
  obtain ⟨hnodup, hsub⟩ := kahnLoop_nodup_sub rels names
    (names.length + rels.length + 1) (inDegree rels names) (initQueue rels names) []
    (by simpa using hnd.filter _)
    (by
      intro x hx
      simp only [List.nil_append] at hx
      exact (List.mem_filter.1 hx).1)
    (by
      intro x hx
      simp only [List.nil_append] at hx
      have hxz := (List.mem_filter.1 hx).2
      rw [beq_iff_eq] at hxz
      omega)
  rw [hout]
  have hperm1 : (remainderSort rels names
      (names.filter (fun n => decide (n ∉ result)))).Perm
      (names.filter (fun n => decide (n ∉ result))) :=
    List.perm_insertionSort _ _
  have hperm2 : result.Perm (names.filter (fun n => decide (n ∈ result))) := by
    refine List.perm_of_nodup_nodup_toFinset_eq hnodup (hnd.filter _) ?_
    ext x
    simp only [List.mem_toFinset, List.mem_filter, decide_eq_true_eq]
    exact ⟨fun hx => ⟨hsub x hx, hx⟩, fun hx => hx.2⟩
  have hperm3 : (names.filter (fun n => decide (n ∈ result)) ++
      names.filter (fun n => decide (n ∉ result))).Perm names := by
    have hsplit := List.filter_append_perm (fun n => decide (n ∈ result)) names
    have heqf : names.filter (fun x => !decide (x ∈ result)) =
        names.filter (fun n => decide (n ∉ result)) := by
      refine List.filter_congr ?_
      intro x _
      rw [decide_not]
    rw [heqf] at hsplit
    exact hsplit
  exact ((hperm1.append_left result).trans
    (hperm2.append (List.Perm.refl _))).trans hperm3

/-- C2 counterexample: the same relation graph presented in two arrival
orders.  With no relations, the relative emission order of `A` and `B`
follows the arrival order; with the mutual `A`/`B` cycle, the broken edge
flips from `(B, A)` to `(A, B)`. -/
theorem c2_counterexample :
    sortEntitiesByDependency [] ["A", "B"] = ["A", "B"] ∧
    sortEntitiesByDependency [] ["B", "A"] = ["B", "A"] ∧
    detectCircularReferences
      [⟨"A", "B", "b", false⟩, ⟨"B", "A", "a", false⟩] ["A", "B"] = [("B", "A")] ∧
    detectCircularReferences
      [⟨"A", "B", "b", false⟩, ⟨"B", "A", "a", false⟩] ["B", "A"] = [("A", "B")] :=
  ⟨rfl, rfl, rfl, rfl⟩

/-- Witness for `c2_order_dependence_amended`. -/
theorem c2_witness :
    (sortEntitiesByDependency [⟨"A", "B", "b", false⟩] ["A", "B"]).Perm ["A", "B"] :=
  c2_order_dependence_amended [⟨"A", "B", "b", false⟩] ["A", "B"] (by decide)

/-! ## Remainder-comparator order lemmas -/

theorem charListLt_nil_right : ∀ (x : List Char), charListLt x [] = false
  | [] => rfl
  | _ :: _ => rfl

theorem charListLt_trans : ∀ {x y z : List Char},
    charListLt x y = true → charListLt y z = true → charListLt x z = true := by
  intro x
  induction x with
  | nil =>
    intro y z hxy hyz
    cases z with
    | nil =>
      rw [charListLt_nil_right] at hyz
      cases hyz
    | cons e es => rfl
  | cons c cs ihx =>
    intro y z hxy hyz
    cases y with
    | nil => cases hxy
    | cons d ds =>
      cases z with
      | nil =>
        rw [charListLt_nil_right] at hyz
        cases hyz
      | cons e es =>
        simp only [charListLt] at hxy hyz ⊢
        by_cases hcd : c < d
        · by_cases hde : d < e
          · rw [if_pos (lt_trans hcd hde)]
          · rw [if_neg hde] at hyz
            by_cases hed : e < d
            · rw [if_pos hed] at hyz; cases hyz
            · have hde2 : d = e := le_antisymm (not_lt.1 hed) (not_lt.1 hde)
              rw [if_pos (hde2 ▸ hcd)]
        · rw [if_neg hcd] at hxy
          by_cases hdc : d < c
          · rw [if_pos hdc] at hxy; cases hxy
          · rw [if_neg hdc] at hxy
            have hcd2 : c = d := le_antisymm (not_lt.1 hdc) (not_lt.1 hcd)
            by_cases hde : d < e
            · rw [if_pos (hcd2 ▸ hde)]
            · rw [if_neg hde] at hyz
              by_cases hed : e < d
              · rw [if_pos hed] at hyz; cases hyz
              · rw [if_neg hed] at hyz
                subst hcd2
                rw [if_neg hde, if_neg hed]
                exact ihx hxy hyz

theorem charListLt_connex : ∀ {x y : List Char},
    charListLt x y = false → charListLt y x = false → x = y := by
  intro x
  induction x with
  | nil =>
    intro y hxy _
    cases y with
    | nil => rfl
    | cons d ds => cases hxy
  | cons c cs ihx =>
    intro y hxy hyx
    cases y with
    | nil => cases hyx
    | cons d ds =>
      simp only [charListLt] at hxy hyx
      by_cases hcd : c < d
      · rw [if_pos hcd] at hxy; cases hxy
      · by_cases hdc : d < c
        · rw [if_pos hdc] at hyx; cases hyx
        · rw [if_neg hcd, if_neg hdc] at hxy
          rw [if_neg hdc, if_neg hcd] at hyx
          have hcd2 : c = d := le_antisymm (not_lt.1 hdc) (not_lt.1 hcd)
          rw [hcd2, ihx hxy hyx]

theorem strLt_trans {a b c : String} (h1 : strLt a b = true) (h2 : strLt b c = true) :
    strLt a c = true := charListLt_trans h1 h2

theorem strLt_connex {a b : String} (h1 : strLt a b = false) (h2 : strLt b a = false) :
    a = b := String.ext (charListLt_connex h1 h2)

/-- The comparator order as an explicit lexicographic triple. -/
theorem remainderLE_iff (rels : List EntityRelation) (names : List String)
    (a b : String) :
    remainderLE rels names a b = true ↔
      (inDegree rels names a < inDegree rels names b ∨
       (inDegree rels names a = inDegree rels names b ∧
        (outgoingCount rels a < outgoingCount rels b ∨
         (outgoingCount rels a = outgoingCount rels b ∧
          (strLt a b = true ∨ a = b))))) := by
  unfold remainderLE remainderCmp lexCmp stringCmp
  by_cases h1 : inDegree rels names a ≠ inDegree rels names b
  · rw [if_pos h1]
    by_cases h2 : inDegree rels names a < inDegree rels names b
    · rw [if_pos h2]
      simp only [ne_eq, decide_eq_true_eq]
      constructor
      · intro _; exact Or.inl h2
      · intro _; intro hcon; cases hcon
    · rw [if_neg h2, if_neg (by omega : ¬ inDegree rels names a = inDegree rels names b)]
      simp only [ne_eq, decide_eq_true_eq]
      constructor
      · intro hcon; exact absurd (by trivial) hcon
      · intro hcon _
        rcases hcon with h3 | ⟨h3, _⟩
        · exact h2 h3
        · exact h1 h3
  · rw [if_neg h1]
    push_neg at h1
    by_cases h2 : outgoingCount rels a ≠ outgoingCount rels b
    · rw [if_pos h2]
      by_cases h3 : outgoingCount rels a < outgoingCount rels b
      · rw [if_pos h3]
        simp only [ne_eq, decide_eq_true_eq]
        constructor
        · intro _; exact Or.inr ⟨h1, Or.inl h3⟩
        · intro _; intro hcon; cases hcon
      · rw [if_neg h3, if_neg (by omega : ¬ outgoingCount rels a = outgoingCount rels b)]
        simp only [ne_eq, decide_eq_true_eq]
        constructor
        · intro hcon; exact absurd (by trivial) hcon
        · intro hcon _
          rcases hcon with h4 | ⟨_, h4 | ⟨h4, _⟩⟩
          · omega
          · exact h3 h4
          · exact h2 h4
    · rw [if_neg h2]
      push_neg at h2
      by_cases h3 : strLt a b = true
      · rw [if_pos h3]
        simp only [ne_eq, decide_eq_true_eq]
        constructor
        · intro _; exact Or.inr ⟨h1, Or.inr ⟨h2, Or.inl h3⟩⟩
        · intro _; intro hcon; cases hcon
      · rw [if_neg h3]
        by_cases h4 : a = b
        · rw [if_pos h4]
          simp only [ne_eq, decide_eq_true_eq]
          constructor
          · intro _; exact Or.inr ⟨h1, Or.inr ⟨h2, Or.inr h4⟩⟩
          · intro _; intro hcon; cases hcon
        · rw [if_neg h4]
          simp only [ne_eq, decide_eq_true_eq]
          constructor
          · intro hcon; exact absurd (by trivial) hcon
          · intro hcon _
            rcases hcon with h5 | ⟨_, h5 | ⟨_, h5 | h5⟩⟩
            · omega
            · omega
            · exact h3 h5
            · exact h4 h5

theorem remainderLE_total (rels : List EntityRelation) (names : List String)
    (a b : String) :
    remainderLE rels names a b = true ∨ remainderLE rels names b a = true := by
  rw [remainderLE_iff, remainderLE_iff]
  rcases lt_trichotomy (inDegree rels names a) (inDegree rels names b) with h | h | h
  · exact Or.inl (Or.inl h)
  · rcases lt_trichotomy (outgoingCount rels a) (outgoingCount rels b) with h2 | h2 | h2
    · exact Or.inl (Or.inr ⟨h, Or.inl h2⟩)
    · by_cases h3 : strLt a b = true
      · exact Or.inl (Or.inr ⟨h, Or.inr ⟨h2, Or.inl h3⟩⟩)
      · by_cases h4 : strLt b a = true
        · exact Or.inr (Or.inr ⟨h.symm, Or.inr ⟨h2.symm, Or.inl h4⟩⟩)
        · have h5 : a = b := strLt_connex (Bool.not_eq_true _ ▸ h3)
            (Bool.not_eq_true _ ▸ h4)
          exact Or.inl (Or.inr ⟨h, Or.inr ⟨h2, Or.inr h5⟩⟩)
    · exact Or.inr (Or.inr ⟨h.symm, Or.inl h2⟩)
  · exact Or.inr (Or.inl h)

theorem remainderLE_trans (rels : List EntityRelation) (names : List String)
    (a b c : String) (h1 : remainderLE rels names a b = true)
    (h2 : remainderLE rels names b c = true) :
    remainderLE rels names a c = true := by
  rw [remainderLE_iff] at h1 h2 ⊢
  rcases h1 with h1 | ⟨h1d, h1r⟩
  · rcases h2 with h2 | ⟨h2d, _⟩
    · exact Or.inl (lt_trans h1 h2)
    · exact Or.inl (h2d ▸ h1)
  · rcases h2 with h2 | ⟨h2d, h2r⟩
    · exact Or.inl (h1d ▸ h2)
    · refine Or.inr ⟨h1d.trans h2d, ?_⟩
      rcases h1r with h1o | ⟨h1o, h1s⟩
      · rcases h2r with h2o | ⟨h2o, _⟩
        · exact Or.inl (lt_trans h1o h2o)
        · exact Or.inl (h2o ▸ h1o)
      · rcases h2r with h2o | ⟨h2o, h2s⟩
        · exact Or.inl (h1o ▸ h2o)
        · refine Or.inr ⟨h1o.trans h2o, ?_⟩
          rcases h1s with h1s | h1s
          · rcases h2s with h2s | h2s
            · exact Or.inl (strLt_trans h1s h2s)
            · exact Or.inl (h2s ▸ h1s)
          · rcases h2s with h2s | h2s
            · exact Or.inl (h1s ▸ h2s)
            · exact Or.inr (h1s.trans h2s)

/-- C8: the remainder left behind by Kahn's algorithm is appended sorted by
ascending in-degree, then ascending outgoing-relation count, then lexical
name (the `remainderLE` order); and on the §8 `User`/`Post`/`Comment`
scenario the emission order is `User`, `Comment`, `Post`. -/
theorem c8_remainder_order :
    (∀ (rels : List EntityRelation) (names : List String) (l : List String),
      List.Sorted (fun a b => remainderLE rels names a b = true)
        (remainderSort rels names l) ∧
      (remainderSort rels names l).Perm l) ∧
    (∀ (rels : List EntityRelation) (names : List String),
      sortEntitiesByDependency rels names =
        kahnLoop rels names (names.length + rels.length + 1)
          (inDegree rels names) (initQueue rels names) [] ++
        remainderSort rels names (names.filter (fun n => decide (n ∉
          kahnLoop rels names (names.length + rels.length + 1)
            (inDegree rels names) (initQueue rels names) [])))) ∧
    sortEntitiesByDependency
      [⟨"User", "Post", "posts", true⟩,
       ⟨"Post", "User", "author", false⟩,
       ⟨"Post", "Comment", "comments", true⟩,
       ⟨"Comment", "Post", "post", false⟩,
       ⟨"Comment", "User", "author", false⟩]
      ["User", "Post", "Comment"] = ["User", "Comment", "Post"] := by
  refine ⟨?_, fun _ _ => rfl, by rfl⟩
  intro rels names l
  haveI : IsTotal String (fun a b => remainderLE rels names a b = true) :=
    ⟨fun a b => remainderLE_total rels names a b⟩
  haveI : IsTrans String (fun a b => remainderLE rels names a b = true) :=
    ⟨fun a b c h1 h2 => remainderLE_trans rels names a b c h1 h2⟩
  exact ⟨List.sorted_insertionSort _ l, List.perm_insertionSort _ l⟩

/-! ## Type projector (`prepare.ts` / `entity-parse`) -/

theorem transformTypeNode_ref_not_collection (pks : String → Option PkInfo)
    (opts : EntityParseOptions) (circ : List (String × String))
    (cur : Option String) (target : String) (args : List TypeNode)
    (hn : target ≠ "Collection") :
    transformTypeNode (TypeNode.ref target args) pks opts circ cur =
      if opts.usePartialTypes then
        replaceEntityTypeWithPartialType (TypeNode.ref target args) pks circ cur
      else replaceEntityTypeWithPrimaryKey (TypeNode.ref target args) pks := by
  show (if target = "Collection" then
      transformCollectionType (TypeNode.ref target args) pks opts circ cur
    else if opts.usePartialTypes then
      replaceEntityTypeWithPartialType (TypeNode.ref target args) pks circ cur
    else replaceEntityTypeWithPrimaryKey (TypeNode.ref target args) pks) = _
  rw [if_neg hn]

theorem replacePartial_none (pks : String → Option PkInfo)
    (circ : List (String × String)) (cur : Option String) (target : String)
    (args : List TypeNode) (hpk : pks target = none) :
    replaceEntityTypeWithPartialType (TypeNode.ref target args) pks circ cur =
      TypeNode.ref target args := by
  show (match pks target with
    | some pk =>
      match cur with
      | some c =>
        if (c, target) ∈ circ then createPrimaryKeyObjectType pk
        else TypeNode.ref ("schema.Partial" ++ target) []
      | none => TypeNode.ref ("schema.Partial" ++ target) []
    | none => TypeNode.ref target args) = _
  rw [hpk]

theorem replacePrimaryKey_none (pks : String → Option PkInfo) (target : String)
    (args : List TypeNode) (hpk : pks target = none) :
    replaceEntityTypeWithPrimaryKey (TypeNode.ref target args) pks =
      TypeNode.ref target args := by
  show (match pks target with
    | some pk => createPrimaryKeyObjectType pk
    | none => TypeNode.ref target args) = _
  rw [hpk]

/-- C4 (amended): when a relation field's target is a known entity without
a collected primary key, the projected type is the original type reference
left unchanged — no stub (empty or otherwise) is synthesized, and the run
proceeds. -/
theorem c4_missing_pk_amended (pks : String → Option PkInfo)
    (opts : EntityParseOptions) (circ : List (String × String))
    (cur : Option String) (target : String) (args : List TypeNode)
    (hn : target ≠ "Collection") (hpk : pks target = none) :
    transformTypeNode (TypeNode.ref target args) pks opts circ cur =
      TypeNode.ref target args := by
  rw [transformTypeNode_ref_not_collection pks opts circ cur target args hn]
  by_cases hu : opts.usePartialTypes
  · rw [if_pos hu, replacePartial_none pks circ cur target args hpk]
  · rw [if_neg hu, replacePrimaryKey_none pks target args hpk]

theorem replacePartial_some (pks : String → Option PkInfo)
    (circ : List (String × String)) (cur0 target : String)
    (args : List TypeNode) (pk : PkInfo) (hpk : pks target = some pk) :
    replaceEntityTypeWithPartialType (TypeNode.ref target args) pks circ (some cur0) =
      if (cur0, target) ∈ circ then TypeNode.lit [(pk.fieldName, false, pk.fieldType)]
      else TypeNode.ref ("schema.Partial" ++ target) [] := by
  show (match pks target with
    | some pk =>
      match (some cur0 : Option String) with
      | some c =>
        if (c, target) ∈ circ then createPrimaryKeyObjectType pk
        else TypeNode.ref ("schema.Partial" ++ target) []
      | none => TypeNode.ref ("schema.Partial" ++ target) []
    | none => TypeNode.ref target args) = _
  rw [hpk]
  rfl

theorem replacePrimaryKey_some (pks : String → Option PkInfo) (target : String)
    (args : List TypeNode) (pk : PkInfo) (hpk : pks target = some pk) :
    replaceEntityTypeWithPrimaryKey (TypeNode.ref target args) pks =
      TypeNode.lit [(pk.fieldName, false, pk.fieldType)] := by
  show (match pks target with
    | some pk => createPrimaryKeyObjectType pk
    | none => TypeNode.ref target args) = _
  rw [hpk]
  rfl

/-- C5: for a relation field whose target entity has a collected primary
key, the projected field type is the inline object type containing exactly
the target's primary-key field (same name and type) and nothing else,
whenever the edge `(current, target)` is in the broken-edge set, and always
when `usePartialTypes` is disabled. -/
theorem c5_primary_key_stub (pks : String → Option PkInfo)
    (opts : EntityParseOptions) (circ : List (String × String))
    (cur : Option String) (target : String) (args : List TypeNode) (pk : PkInfo)
    (hn : target ≠ "Collection") (hpk : pks target = some pk) :
    (opts.usePartialTypes = false →
      transformTypeNode (TypeNode.ref target args) pks opts circ cur =
        TypeNode.lit [(pk.fieldName, false, pk.fieldType)]) ∧
    ∀ cur0, cur = some cur0 → (cur0, target) ∈ circ →
      transformTypeNode (TypeNode.ref target args) pks opts circ cur =
        TypeNode.lit [(pk.fieldName, false, pk.fieldType)] := by
  constructor
  · intro hu
    rw [transformTypeNode_ref_not_collection pks opts circ cur target args hn,
      if_neg (by rw [hu]; exact Bool.false_ne_true),
      replacePrimaryKey_some pks target args pk hpk]
  · intro cur0 hcur hcirc
    subst hcur
    rw [transformTypeNode_ref_not_collection pks opts circ (some cur0) target args hn]
    by_cases hu : opts.usePartialTypes
    · rw [if_pos hu, replacePartial_some pks circ cur0 target args pk hpk,
        if_pos hcirc]
    · rw [if_neg hu, replacePrimaryKey_some pks target args pk hpk]

/-- Witness for `c5_primary_key_stub`. -/
theorem c5_witness :
    transformTypeNode (TypeNode.ref "B" [])
      (fun k => if k = "B" then some ⟨"id", TypeNode.keyword "number"⟩ else none)
      ⟨false⟩ [] none =
      TypeNode.lit [("id", false, TypeNode.keyword "number")] :=
  (c5_primary_key_stub
    (fun k => if k = "B" then some ⟨"id", TypeNode.keyword "number"⟩ else none)
    ⟨false⟩ [] none "B" [] ⟨"id", TypeNode.keyword "number"⟩
    (by decide) rfl).1 rfl

/-- Witness for `c4_missing_pk_amended`. -/
theorem c4_witness :
    transformTypeNode (TypeNode.ref "B" []) (fun _ => none) ⟨true⟩ [] none =
      TypeNode.ref "B" [] :=
  c4_missing_pk_amended (fun _ => none) ⟨true⟩ [] none "B" [] (by decide) rfl

/-- C4 counterexample. -/
theorem c4_counterexample :
    "B" ∈ collectNames
      [⟨"A", true, [⟨"id", false, true, none, none, some (TypeNode.keyword "number"), none⟩,
        ⟨"b", false, false, some none, none, some (TypeNode.ref "B" []), none⟩]⟩,
       ⟨"B", true, [⟨"name", false, false, none, none, some (TypeNode.keyword "string"), none⟩]⟩] ∧
    collectPks
      [⟨"A", true, [⟨"id", false, true, none, none, some (TypeNode.keyword "number"), none⟩,
        ⟨"b", false, false, some none, none, some (TypeNode.ref "B" []), none⟩]⟩,
       ⟨"B", true, [⟨"name", false, false, none, none, some (TypeNode.keyword "string"), none⟩]⟩] "B" = none ∧
    projectMember
      (collectPks
        [⟨"A", true, [⟨"id", false, true, none, none, some (TypeNode.keyword "number"), none⟩,
          ⟨"b", false, false, some none, none, some (TypeNode.ref "B" []), none⟩]⟩,
         ⟨"B", true, [⟨"name", false, false, none, none, some (TypeNode.keyword "string"), none⟩]⟩])
      ⟨true⟩ [] "A"
      ⟨"b", false, false, some none, none, some (TypeNode.ref "B" []), none⟩ =
      ⟨"b", false, TypeNode.ref "B" []⟩ ∧
    TypeNode.ref "B" [] ≠ TypeNode.lit [] := by
  refine ⟨by decide, rfl, rfl, ?_⟩
  intro h
  exact TypeNode.noConfusion h

/-- C6: for every entity with a collected primary key (in
`usePartialTypes` mode), the emitted declarations are the main alias
followed by the `PartialEntity` companion, whose fields correspond one to
one to the main alias's already-projected fields: same name, same type,
the primary-key-named field's optionality unchanged (required stays
required) and every other field marked optional. -/
theorem c6_partial_shape (pks : String → Option PkInfo) (opts : EntityParseOptions)
    (circ : List (String × String)) (c : ClassDef) (pk : PkInfo)
    (hpk : pks c.cname = some pk) (hopt : opts.usePartialTypes = true) :
    ∃ props pprops, classToDecls pks opts circ c =
        [Decl.typeAlias c.cname props, Decl.typeAlias ("Partial" ++ c.cname) pprops] ∧
      List.Forall₂ (fun p q : PropSig => q.pname = p.pname ∧ q.ptype = p.ptype ∧
        q.optional = (if p.pname = pk.fieldName then p.optional else true))
        props pprops := by
  refine ⟨c.members.map (projectMember pks opts circ c.cname),
    partialProps pk (c.members.map (projectMember pks opts circ c.cname)), ?_, ?_⟩
  · show (if opts.usePartialTypes then
        match pks c.cname with
        | some pk => [Decl.typeAlias c.cname (c.members.map (projectMember pks opts circ c.cname)),
            createPartialEntityType c.cname pk (c.members.map (projectMember pks opts circ c.cname))]
        | none => [Decl.typeAlias c.cname (c.members.map (projectMember pks opts circ c.cname))]
      else [Decl.typeAlias c.cname (c.members.map (projectMember pks opts circ c.cname))]) = _
    rw [if_pos (by rw [hopt]), hpk]
    rfl
  · rw [partialProps, List.forall₂_map_right_iff]
    rw [List.forall₂_same]
    intro p _
    by_cases hp : p.pname = pk.fieldName
    · rw [if_pos hp, if_pos hp]
      exact ⟨rfl, rfl, rfl⟩
    · rw [if_neg hp, if_neg hp]
      exact ⟨rfl, rfl, rfl⟩

/-- Witness for `c6_partial_shape`. -/
theorem c6_witness :
    ∃ props pprops,
      classToDecls (fun k => if k = "A" then some ⟨"id", TypeNode.keyword "number"⟩ else none)
        ⟨true⟩ []
        ⟨"A", true, [⟨"id", false, true, none, none, some (TypeNode.keyword "number"), none⟩,
          ⟨"name", false, false, none, none, some (TypeNode.keyword "string"), none⟩]⟩ =
        [Decl.typeAlias "A" props, Decl.typeAlias ("Partial" ++ "A") pprops] ∧
      List.Forall₂ (fun p q : PropSig => q.pname = p.pname ∧ q.ptype = p.ptype ∧
        q.optional = (if p.pname = "id" then p.optional else true)) props pprops :=
  c6_partial_shape
    (fun k => if k = "A" then some ⟨"id", TypeNode.keyword "number"⟩ else none)
    ⟨true⟩ []
    ⟨"A", true, [⟨"id", false, true, none, none, some (TypeNode.keyword "number"), none⟩,
      ⟨"name", false, false, none, none, some (TypeNode.keyword "string"), none⟩]⟩
    ⟨"id", TypeNode.keyword "number"⟩ rfl rfl

theorem classToDecls_typeAlias (pks : String → Option PkInfo)
    (opts : EntityParseOptions) (circ : List (String × String)) (c : ClassDef) :
    ∀ d ∈ classToDecls pks opts circ c, ∃ n fs, d = Decl.typeAlias n fs := by
  intro d hd
  have hshow : classToDecls pks opts circ c =
      (if opts.usePartialTypes then
        match pks c.cname with
        | some pk => [Decl.typeAlias c.cname (c.members.map (projectMember pks opts circ c.cname)),
            createPartialEntityType c.cname pk (c.members.map (projectMember pks opts circ c.cname))]
        | none => [Decl.typeAlias c.cname (c.members.map (projectMember pks opts circ c.cname))]
      else [Decl.typeAlias c.cname (c.members.map (projectMember pks opts circ c.cname))]) := rfl
  rw [hshow] at hd
  by_cases hu : opts.usePartialTypes
  · rw [if_pos hu] at hd
    cases hc : pks c.cname with
    | some pk =>
      rw [hc] at hd
      rcases List.mem_cons.1 hd with h1 | h1
      · exact ⟨_, _, h1⟩
      · rw [List.mem_singleton.1 h1]
        exact ⟨_, _, rfl⟩
    | none =>
      rw [hc] at hd
      rw [List.mem_singleton.1 hd]
      exact ⟨_, _, rfl⟩
  · rw [if_neg hu] at hd
    rw [List.mem_singleton.1 hd]
    exact ⟨_, _, rfl⟩

theorem files_no_collectionAux (fs : List (List ClassDef))
    (pks : String → Option PkInfo) (opts : EntityParseOptions)
    (circ : List (String × String)) :
    Decl.collectionAux ∉ (fs.map (generateEntityTypesModel pks opts circ)).flatten := by
  intro h
  obtain ⟨l, hl, hmem⟩ := List.mem_flatten.1 h
  obtain ⟨f, _, hf⟩ := List.mem_map.1 hl
  rw [← hf] at hmem
  obtain ⟨l2, hl2, hmem2⟩ := List.mem_flatten.1 hmem
  obtain ⟨c, _, hc⟩ := List.mem_map.1 hl2
  rw [← hc] at hmem2
  obtain ⟨n, fs2, heq⟩ := classToDecls_typeAlias pks opts circ c _ hmem2
  exact Decl.noConfusion heq

/-- C9: every `Collection<...>`-typed field (and every
`new Collection<T>(this)`-initialized field) is projected as the union
`Collection<E> | Array<E>` with the element types resolved by the
mode-selected entity replacement, and the output of the file-level
generator starts with exactly one shared `Collection<T>` auxiliary
declaration, which never reappears in the body, whatever the files. -/
theorem c9_collection_union (pks : String → Option PkInfo)
    (opts : EntityParseOptions) (circ : List (String × String))
    (cur : Option String) (args : List TypeNode) (h : args ≠ [])
    (g : TypeNode) (files : List (List ClassDef)) (opts2 : EntityParseOptions) :
    (transformTypeNode (TypeNode.ref "Collection" args) pks opts circ cur =
      TypeNode.union
        [TypeNode.ref "Collection" (args.map (fun a =>
            if opts.usePartialTypes then
              replaceEntityTypeWithPartialType a pks circ cur
            else replaceEntityTypeWithPrimaryKey a pks)),
         TypeNode.ref "Array" (args.map (fun a =>
            if opts.usePartialTypes then
              replaceEntityTypeWithPartialType a pks circ cur
            else replaceEntityTypeWithPrimaryKey a pks))]) ∧
    (inferTypeFromInitializer (InitExpr.collectionNew (some g)) pks opts circ cur =
      some (TypeNode.union
        [TypeNode.ref "Collection" [if opts.usePartialTypes then
            replaceEntityTypeWithPartialType g pks circ cur
          else replaceEntityTypeWithPrimaryKey g pks],
         TypeNode.ref "Array" [if opts.usePartialTypes then
            replaceEntityTypeWithPartialType g pks circ cur
          else replaceEntityTypeWithPrimaryKey g pks]])) ∧
    ∃ body, generateEntityFileTypesModel files opts2 = Decl.collectionAux :: body ∧
      Decl.collectionAux ∉ body := by
  refine ⟨?_, rfl, ?_⟩
  · have hshow : transformTypeNode (TypeNode.ref "Collection" args) pks opts circ cur =
        transformCollectionType (TypeNode.ref "Collection" args) pks opts circ cur := by
      show (if "Collection" = "Collection" then
          transformCollectionType (TypeNode.ref "Collection" args) pks opts circ cur
        else if opts.usePartialTypes then
          replaceEntityTypeWithPartialType (TypeNode.ref "Collection" args) pks circ cur
        else replaceEntityTypeWithPrimaryKey (TypeNode.ref "Collection" args) pks) = _
      rw [if_pos rfl]
    rw [hshow]
    show (if "Collection" = "Collection" then
        if ("Collection" = "Collection" : Bool) && args.isEmpty then
          TypeNode.union [TypeNode.ref "Collection" args, TypeNode.ref "Array" args]
        else TypeNode.union [TypeNode.ref "Collection" (args.map (fun a =>
            if opts.usePartialTypes then
              replaceEntityTypeWithPartialType a pks circ cur
            else replaceEntityTypeWithPrimaryKey a pks)),
          TypeNode.ref "Array" (args.map (fun a =>
            if opts.usePartialTypes then
              replaceEntityTypeWithPartialType a pks circ cur
            else replaceEntityTypeWithPrimaryKey a pks))]
      else TypeNode.ref "Collection" args) = _
    have hne : args.isEmpty = false := by
      cases args with
      | nil => exact absurd rfl h
      | cons a as => rfl
    simp [hne]
  · exact ⟨_, rfl, files_no_collectionAux _ _ _ _⟩

/-- Witness for `c9_collection_union`. -/
theorem c9_witness :
    (transformTypeNode (TypeNode.ref "Collection" [TypeNode.ref "B" []])
      (fun k => if k = "B" then some ⟨"id", TypeNode.keyword "number"⟩ else none)
      ⟨false⟩ [] none =
      TypeNode.union
        [TypeNode.ref "Collection" [TypeNode.lit [("id", false, TypeNode.keyword "number")]],
         TypeNode.ref "Array" [TypeNode.lit [("id", false, TypeNode.keyword "number")]]]) ∧
    (inferTypeFromInitializer (InitExpr.collectionNew (some (TypeNode.ref "B" [])))
      (fun k => if k = "B" then some ⟨"id", TypeNode.keyword "number"⟩ else none)
      ⟨false⟩ [] none =
      some (TypeNode.union
        [TypeNode.ref "Collection" [TypeNode.lit [("id", false, TypeNode.keyword "number")]],
         TypeNode.ref "Array" [TypeNode.lit [("id", false, TypeNode.keyword "number")]]])) ∧
    ∃ body, generateEntityFileTypesModel [] ⟨true⟩ = Decl.collectionAux :: body ∧
      Decl.collectionAux ∉ body :=
  c9_collection_union
    (fun k => if k = "B" then some ⟨"id", TypeNode.keyword "number"⟩ else none)
    ⟨false⟩ [] none [TypeNode.ref "B" []] (List.cons_ne_nil _ _) (TypeNode.ref "B" [])
    [] ⟨true⟩

theorem breakStep_circ_mem (b : BreakState) (c : List String) :
    ∀ pr ∈ (breakStep b c).circ, pr ∈ b.circ ∨ pr.1 ≠ pr.2 := by
  intro pr hpr
  rw [breakStep] at hpr
  by_cases h1 : isCycleBroken b c = true
  · rw [if_pos h1] at hpr
    exact Or.inl hpr
  · rw [if_neg h1] at hpr
    by_cases h2 : 2 ≤ c.length
    · rw [if_pos h2] at hpr
      rcases hm : c.drop (c.length - 2) with _ | ⟨a, _ | ⟨a2, _ | _⟩⟩ <;>
        rw [hm] at hpr
      · exact Or.inl hpr
      · exact Or.inl hpr
      · have hpr2 : pr ∈ (if a ≠ "" ∧ a2 ≠ "" ∧ a ≠ a2 then
            ({ brokenKeys := b.brokenKeys ++ [relationKey a a2],
               circ := b.circ ++ [(a, a2)] } : BreakState) else b).circ := hpr
        by_cases h3 : a ≠ "" ∧ a2 ≠ "" ∧ a ≠ a2
        · rw [if_pos h3] at hpr2
          rcases List.mem_append.1 hpr2 with h4 | h4
          · exact Or.inl h4
          · rw [List.mem_singleton.1 h4]
            exact Or.inr h3.2.2
        · rw [if_neg h3] at hpr2
          exact Or.inl hpr2
      · exact Or.inl hpr
    · rw [if_neg h2] at hpr
      exact Or.inl hpr

theorem breakFold_no_self (cs : List (List String)) (b : BreakState)
    (hb : ∀ pr ∈ b.circ, pr.1 ≠ pr.2) :
    ∀ pr ∈ (cs.foldl breakStep b).circ, pr.1 ≠ pr.2 := by
  induction cs generalizing b with
  | nil => exact hb
  | cons c cs ih =>
    refine ih (breakStep b c) ?_
    intro pr hpr
    rcases breakStep_circ_mem b c pr hpr with h1 | h1
    · exact hb pr h1
    · exact h1

theorem circ_no_self (rels : List EntityRelation) (names : List String) :
    ∀ pr ∈ detectCircularReferences rels names, pr.1 ≠ pr.2 :=
  breakFold_no_self (sortCyclesByLengthDesc (runDfs rels names).cycles) ⟨[], []⟩
    (fun pr hpr => absurd hpr (List.not_mem_nil pr))

/-- C10: an entity `E` with a relation edge to itself closes a detected
cycle `(E, E)`, yet the pair `(E, E)` is never added to the broken-edge
set, so the self-referencing field is projected through the normal
non-broken path (the `schema.PartialE` reference in partial mode). -/
theorem c10_self_loop (rels : List EntityRelation) (names : List String)
    (r : EntityRelation) (E : String) (pks : String → Option PkInfo) (pk : PkInfo)
    (opts : EntityParseOptions) (args : List TypeNode)
    (hr : r ∈ rels) (hfrom : r.efrom = E) (hto : r.eto = E) (hE : E ∈ names)
    (hpk : pks E = some pk) (hopt : opts.usePartialTypes = true)
    (hn : E ≠ "Collection") :
    ClosesCycle (runDfs rels names).cycles E E ∧
    (E, E) ∉ detectCircularReferences rels names ∧
    transformTypeNode (TypeNode.ref E args) pks opts
        (detectCircularReferences rels names) (some E) =
      TypeNode.ref ("schema.Partial" ++ E) [] := by
  have hnotin : (E, E) ∉ detectCircularReferences rels names := by
    intro hmem
    exact circ_no_self rels names (E, E) hmem rfl
  refine ⟨?_, hnotin, ?_⟩
  · obtain ⟨hinv, _, hfin⟩ := runDfs_spec rels names
    have hclass := hinv.fin_classified E (hfin E hE) r hr hfrom (hto ▸ hE)
    rw [hto] at hclass
    rcases hclass with h1 | h1
    · exact h1
    · exact absurd h1.2.2 (lt_irrefl _)
  · rw [transformTypeNode_ref_not_collection pks opts
        (detectCircularReferences rels names) (some E) E args hn,
      if_pos (by rw [hopt]),
      replacePartial_some pks (detectCircularReferences rels names) E E args pk hpk,
      if_neg hnotin]

/-- Witness for `c10_self_loop`. -/
theorem c10_witness :
    ClosesCycle (runDfs [⟨"A", "A", "self", false⟩] ["A"]).cycles "A" "A" ∧
    ("A", "A") ∉ detectCircularReferences [⟨"A", "A", "self", false⟩] ["A"] ∧
    transformTypeNode (TypeNode.ref "A" [])
      (fun k => if k = "A" then some ⟨"id", TypeNode.keyword "number"⟩ else none)
      ⟨true⟩ (detectCircularReferences [⟨"A", "A", "self", false⟩] ["A"])
      (some "A") =
      TypeNode.ref ("schema.Partial" ++ "A") [] :=
  c10_self_loop [⟨"A", "A", "self", false⟩] ["A"] ⟨"A", "A", "self", false⟩ "A"
    (fun k => if k = "A" then some ⟨"id", TypeNode.keyword "number"⟩ else none)
    ⟨"id", TypeNode.keyword "number"⟩ ⟨true⟩ []
    (List.mem_singleton_self _) rfl rfl (List.mem_singleton_self _) rfl rfl
    (by decide)

/-- C3 (amended): the generation run aborts with the missing-directory
error exactly when the entities directory does not exist; an existing
directory (even one yielding an empty entity set) always produces
output. -/
theorem c3_error_boundary (entitiesDir : String) (dirExists : Bool)
    (entries : List String) (readF : String → String)
    (parse : String → List ClassDef) (partials : Option Bool)
    (targetIsTypebox : Bool) :
    (dirExists = false →
      generateEntityValidatorModel entitiesDir dirExists entries readF parse
          partials targetIsTypebox =
        Except.error ("Entities directory does not exist: " ++ entitiesDir ++
          ". Set the entitiesDir option to the correct directory.")) ∧
    (dirExists = true →
      ∃ ds, generateEntityValidatorModel entitiesDir dirExists entries readF parse
          partials targetIsTypebox = Except.ok ds) := by
  constructor
  · intro h
    subst h
    rfl
  · intro h
    subst h
    exact ⟨_, rfl⟩

/-- C3 counterexample: an existing but empty entities directory yields an
empty entity set, and the run succeeds (emitting just the shared auxiliary
declaration) instead of aborting with an error. -/
theorem c3_counterexample :
    generateEntityValidatorModel "entities" true [] (fun _ => "") (fun _ => [])
        none true =
      Except.ok [Decl.collectionAux] ∧
    ∀ e, generateEntityValidatorModel "entities" true [] (fun _ => "")
        (fun _ => []) none true ≠ Except.error e := by
  refine ⟨rfl, ?_⟩
  intro e h
  rw [show generateEntityValidatorModel "entities" true [] (fun _ => "")
      (fun _ => []) none true = Except.ok [Decl.collectionAux] from rfl] at h
  exact Except.noConfusion h

/-- Witness for `c3_error_boundary`. -/
theorem c3_witness :
    generateEntityValidatorModel "entities" false [] (fun _ => "") (fun _ => [])
        none true =
      Except.error ("Entities directory does not exist: " ++ "entities" ++
        ". Set the entitiesDir option to the correct directory.") :=
  (c3_error_boundary "entities" false [] (fun _ => "") (fun _ => []) none true).1
    rfl
